import Mathlib

/-!
Verification of the nut-sort solvers of this repository.

Shallow embedding of:
  src/algorithms/backtracking/core.py      (namespace NutSort.BT)
  src/algorithms/branch_and_bound/core.py  (namespace NutSort.BB)

Conventions of the embedding:
* A pile (`Pile`) is a `List Color`, bottom first, so the Python `p[-1]`
  (the top of the pile) is `List.getLast?`.
* Python integers used as indices are modelled as `Int`; Python's negative
  indexing and `IndexError` are modelled by `pyGet` / the explicit bounds
  test, exactly in the order the source performs them.
* Exceptions are modelled by `Except PyErr`; `ValueError` and `IndexError`
  are the two constructors.
* The recursive DFS and the best-first loop are modelled with an explicit
  fuel parameter; `none` means the fuel ran out (the Python code has no
  such case, so every theorem is stated about `some` results, which are
  exactly the results the Python code produces).
* Python `dict` / `Counter` values whose insertion order matters are
  modelled as association lists built in the same order.
-/

namespace NutSort

abbrev Color := String
abbrev Pile := List Color
abbrev State := List Pile
abbrev Move := Nat × Nat

/-- `MAX_CAP = 5`, the capacity of every pile. -/
def MAX_CAP : Nat := 5

/-- `top(p)`: the color on top of the pile (`p[-1]`), or `None`. -/
def top (p : Pile) : Option Color := p.getLast?

/-- `free_slots(p) = MAX_CAP - len(p)` (a Python `int`, so possibly negative). -/
def free_slots (p : Pile) : Int := (MAX_CAP : Int) - (p.length : Int)

/-- `run_len_superior(p)`: length of the run of the top color, scanning down. -/
def run_len_superior (p : Pile) : Nat :=
  match top p with
  | none => 0
  | some c => (p.reverse.takeWhile (fun x => x == c)).length

/-- `pila_es_monocolor(p)`: `len(p) <= 1` or all elements equal `p[0]`. -/
def pila_es_monocolor (p : Pile) : Bool :=
  if p.length ≤ 1 then true
  else p.all (fun x => p.head? == some x)

/-- `pila_terminada(p)`: full (`len == MAX_CAP`) and monochrome. -/
def pila_terminada (p : Pile) : Bool :=
  if p.length == MAX_CAP then p.all (fun x => p.head? == some x)
  else false

/-- `is_goal(s)`: every pile is empty, or full and monochrome. -/
def is_goal (s : State) : Bool :=
  s.all (fun p =>
    if p.length == 0 then true
    else if p.length == MAX_CAP && p.all (fun x => p.head? == some x) then true
    else false)

/-- `puede_mover(src, dst)`: source non-empty, destination not full, and
destination empty or matching top colors. -/
def puede_mover (p_src p_dst : Pile) : Bool :=
  if p_src.isEmpty then false
  else if MAX_CAP ≤ p_dst.length then false
  else p_dst.isEmpty || (top p_src == top p_dst)

/-- The two Python exception classes raised by `aplicar_movimiento`. -/
inductive PyErr where
  | indexError : PyErr
  | valueError : PyErr
deriving DecidableEq, Repr

/-- Python list indexing: valid for `0 ≤ i < n` and (wrapping) `-n ≤ i < 0`. -/
def pyIdx (n : Nat) (i : Int) : Option Nat :=
  if 0 ≤ i && i < (n : Int) then some i.toNat
  else if i < 0 && 0 ≤ (n : Int) + i then some ((n : Int) + i).toNat
  else none

/-- Python `l[i]` (raising = `none`). -/
def pyGet (l : List α) (i : Int) : Option α :=
  match pyIdx l.length i with
  | some k => l.get? k
  | none => none

/-- `aplicar_movimiento` of src/algorithms/branch_and_bound/core.py:
check `puede_mover(s[i], s[j])` (indexing may raise `IndexError`), raise
`ValueError` if illegal, then the explicit bounds check (`IndexError`),
then pop the top of pile `i` and append it to pile `j`.  Note the Python
source assigns `nuevo[i]` first and `nuevo[j]` second, so for `i == j`
the second assignment wins. -/
def aplicar_movimiento (s : State) (i j : Int) : Except PyErr State :=
  match pyGet s i with
  | none => .error .indexError
  | some p_i =>
    match pyGet s j with
    | none => .error .indexError
    | some p_j =>
      if !puede_mover p_i p_j then .error .valueError
      else if i < 0 || (s.length : Int) ≤ i || j < 0 || (s.length : Int) ≤ j then
        .error .indexError
      else
        match p_i.getLast? with
        | none => .error .valueError  -- unreachable: puede_mover needs a non-empty source
        | some c =>
          .ok ((s.set i.toNat p_i.dropLast).set j.toNat (p_j ++ [c]))

namespace BT

/-- `aplicar_movimiento` of src/algorithms/backtracking/core.py: same as the
branch-and-bound version plus the defensive re-validations of the source
(color match of source top against destination top, post-move adjacency
check of the two top elements, and the final capacity check). -/
def aplicar_movimiento (s : State) (i j : Int) : Except PyErr State :=
  match pyGet s i with
  | none => .error .indexError
  | some p_i =>
    match pyGet s j with
    | none => .error .indexError
    | some p_j =>
      if !puede_mover p_i p_j then .error .valueError
      else if i < 0 || (s.length : Int) ≤ i || j < 0 || (s.length : Int) ≤ j then
        .error .indexError
      else
        match p_i.getLast? with
        | none => .error .valueError  -- unreachable: puede_mover needs a non-empty source
        | some c =>
          -- VALIDACIÓN CRÍTICA: destination top (if any) must match the moved color
          if (match p_j.getLast? with | some d => !(c == d) | none => false) then
            .error .valueError
          else
            -- VALIDACIÓN POST-MOVIMIENTO: the two new top elements must match
            if 1 < (p_j ++ [c]).length && !((p_j ++ [c]).getLast? == p_j.getLast?) then
              .error .valueError
            else
              -- VALIDACIÓN FINAL: capacity
              if MAX_CAP < (p_j ++ [c]).length then .error .valueError
              else .ok ((s.set i.toNat p_i.dropLast).set j.toNat (p_j ++ [c]))

/-- Association-list increment, modelling `Counter[c] += 1` (insertion order
of a CPython dict is first-seen order, which the list order mirrors). -/
def bump (l : List (Color × Nat)) (c : Color) : List (Color × Nat) :=
  match l with
  | [] => [(c, 1)]
  | (c', n) :: rest => if c' == c then (c', n + 1) :: rest else (c', n) :: bump rest c

/-- Association-list lookup with default, modelling `d.get(c, dflt)` / `d[c]`. -/
def lookupD (l : List (Color × Nat)) (c : Color) (dflt : Nat) : Nat :=
  match l with
  | [] => dflt
  | (c', n) :: rest => if c' == c then n else lookupD rest c dflt

/-- `freq_topes(s)`: counts of each color appearing as a pile top. -/
def freq_topes (s : State) : List (Color × Nat) :=
  s.foldl (fun cnt p =>
    match top p with
    | some c => bump cnt c
    | none => cnt) []

/-- Association-list max-update, modelling `best[c] = max(best.get(c,0), r)`. -/
def insMax (l : List (Color × Nat)) (c : Color) (r : Nat) : List (Color × Nat) :=
  match l with
  | [] => [(c, r)]
  | (c', n) :: rest => if c' == c then (c', max n r) :: rest else (c', n) :: insMax rest c r

/-- `max_run_por_color(s)`: for each top color, the longest top run found. -/
def max_run_por_color (s : State) : List (Color × Nat) :=
  s.foldl (fun best p =>
    match top p with
    | none => best
    | some c => insMax best c (run_len_superior p)) []

/-- Strict lexicographic comparison on `(freq, run)` pairs (the key of
`elegir_color_foco`). -/
def pairLt (a b : Nat × Nat) : Bool :=
  if a.1 ≠ b.1 then decide (a.1 < b.1) else decide (a.2 < b.2)

/-- Python `max(ft.keys(), key=...)`: scan the keys in insertion order and
replace the current best only on a strictly larger key, so the first
maximal key wins. -/
def pickMax (key : Color → Nat × Nat) (c0 : Color) (rest : List Color) : Color :=
  rest.foldl (fun best c => if pairLt (key best) (key c) then c else best) c0

/-- `elegir_color_foco(s)`: the top color maximizing `(frequency, best run)`,
ties resolved in favor of the first-seen key; `None` when no pile has a top. -/
def elegir_color_foco (s : State) : Option Color :=
  match freq_topes s with
  | [] => none
  | (c0, _) :: rest =>
    let ft := freq_topes s
    let br := max_run_por_color s
    some (pickMax (fun c => (lookupD ft c 0, lookupD br c 0)) c0 (rest.map Prod.fst))

/-- `priority_tuple(s, i, j)`: the H2 move-priority tuple (smaller = better).
Python tuples are modelled as `List Int`; the defensive `c is None` branch
returns the source's 6-element tuple. -/
def priority_tuple (s : State) (i j : Nat) : List Int :=
  let p_src := s.getD i []
  let p_dst := s.getD j []
  match top p_src with
  | none => [999, 0, 0, 0, 0, 0]
  | some c =>
    let same_color := !p_dst.isEmpty && (top p_dst == some c)
    let run_after := run_len_superior (p_dst ++ [c])
    let run_before := run_len_superior p_src
    let dest_empty := p_dst.length == 0
    let dest_free : Int := free_slots p_dst
    let break_pure := 1 < p_src.length && p_src.all (fun x => p_src.head? == some x)
    let espacios_despues : Int := if !dest_empty then dest_free - 1 else (MAX_CAP : Int) - 1
    let es_buffer := j == s.length - 1
    let preferir_buffer : Int := if same_color then (if es_buffer then 0 else 1) else 1
    [ if same_color then 0 else 1
    , preferir_buffer
    , -(run_after : Int)
    , -(run_before : Int)
    , if !dest_empty then 0 else 1
    , -espacios_despues
    , if break_pure then 1 else 0 ]

/-- Python tuple `<` (lexicographic; a strict prefix is smaller). -/
def lexLt : List Int → List Int → Bool
  | [], [] => false
  | [], _ :: _ => true
  | _ :: _, [] => false
  | a :: l1, b :: l2 => if a < b then true else if b < a then false else lexLt l1 l2

/-- Stable insertion used by `sortByPrio`: `x` goes after every strictly
smaller element and before the first equal-or-larger one. -/
def insertSorted (key : Move → List Int) (x : Move) : List Move → List Move
  | [] => [x]
  | y :: ys => if lexLt (key y) (key x) then y :: insertSorted key x ys else x :: y :: ys

/-- `list.sort(key=...)` (a stable sort by the priority tuple). -/
def sortByPrio (key : Move → List Int) (l : List Move) : List Move :=
  l.foldr (insertSorted key) []

/-- `generar_movimientos_ordenados(s)`: all legal moves between non-finished
piles, split into focus-color moves and others, each group stably sorted by
`priority_tuple`, focus group first. -/
def generar_movimientos_ordenados (s : State) : List Move :=
  let N := s.length
  let foco := elegir_color_foco s
  let pares := (List.range N).flatMap (fun i =>
    if pila_terminada (s.getD i []) then []
    else (List.range N).filterMap (fun j =>
      if i == j then none
      else if pila_terminada (s.getD j []) then none
      else if puede_mover (s.getD i []) (s.getD j []) then some (i, j)
      else none))
  let grupos := pares.partition (fun m =>
    match foco with
    | some f => !(s.getD m.1 []).isEmpty && (top (s.getD m.1 []) == some f)
    | none => false)
  sortByPrio (fun m => priority_tuple s m.1 m.2) grupos.1 ++
    sortByPrio (fun m => priority_tuple s m.1 m.2) grupos.2

/-- `SearchStats` of the backtracking engine. -/
structure SearchStats where
  expanded : Nat
  max_depth : Nat
deriving DecidableEq, Repr

/-- Python truthiness of `if max_expansions and stats.expanded >= max_expansions`:
`None` and `0` are falsy. -/
def cutoff (max_expansions : Option Nat) (expanded : Nat) : Bool :=
  match max_expansions with
  | none => false
  | some m => decide (m ≠ 0) && decide (m ≤ expanded)

/-- Result of one `dfs` call: the solution (if found), plus the threaded
visited set and stats (the Python closure mutates these in place). -/
abbrev DfsRes := Option (List Move) × List State × SearchStats

/-- The `for (i, j) in moves` loop body of `dfs`: skip immediate reversals,
re-validate with `puede_mover`, apply the move (skipping on error), skip
visited states, otherwise mark visited and recurse via `next`. -/
def tryMoves
    (next : State → List Move → Option Move → List State → SearchStats → Option DfsRes)
    (s : State) (path : List Move) (last_move : Option Move) :
    List Move → List State → SearchStats → Option DfsRes
  | [], visited, stats => some (none, visited, stats)
  | (i, j) :: rest, visited, stats =>
    if last_move == some (j, i) then
      tryMoves next s path last_move rest visited stats
    else if !puede_mover (s.getD i []) (s.getD j []) then
      tryMoves next s path last_move rest visited stats
    else
      match aplicar_movimiento s (i : Int) (j : Int) with
      | .error _ => tryMoves next s path last_move rest visited stats
      | .ok nuevo =>
        if visited.contains nuevo then
          tryMoves next s path last_move rest visited stats
        else
          match next nuevo (path ++ [(i, j)]) (some (i, j)) (nuevo :: visited) stats with
          | none => none
          | some (some sol, v2, st2) => some (some sol, v2, st2)
          | some (none, v2, st2) => tryMoves next s path last_move rest v2 st2

/-- The recursive `dfs` of `solve_backtracking`, with explicit fuel. -/
def dfs (max_expansions : Option Nat) :
    Nat → State → List Move → Option Move → List State → SearchStats → Option DfsRes
  | 0, _, _, _, _, _ => none
  | fuel + 1, s, path, last_move, visited, stats =>
    let stats1 : SearchStats :=
      { expanded := stats.expanded + 1, max_depth := max stats.max_depth path.length }
    if cutoff max_expansions stats1.expanded then some (none, visited, stats1)
    else if is_goal s then some (some path, visited, stats1)
    else tryMoves (dfs max_expansions fuel) s path last_move
      (generar_movimientos_ordenados s) visited stats1

/-- `solve_backtracking(start, max_expansions)`; the outer `none` means the
fuel ran out before the Python recursion finished. -/
def solve_backtracking (start : State) (max_expansions : Option Nat) (fuel : Nat) :
    Option (Option (List Move) × SearchStats) :=
  match dfs max_expansions fuel start [] none [start] { expanded := 0, max_depth := 0 } with
  | none => none
  | some (sol, _, stats) => some (sol, stats)

end BT

namespace BB

/-- `obtener_color_base(p)`: the bottom color. -/
def obtener_color_base (p : Pile) : Option Color := p.head?

/-- `calcular_racha_mas_larga(p, color)`: longest consecutive run of `color`. -/
def calcular_racha_mas_larga (p : Pile) (color : Color) : Nat :=
  (p.foldl (fun acc c =>
    let racha := if c == color then acc.2 + 1 else 0
    (max acc.1 racha, racha)) ((0 : Nat), (0 : Nat))).1

/-- `contar_otros_colores(p, color)`. -/
def contar_otros_colores (p : Pile) (color : Color) : Nat :=
  (p.filter (fun c => !(c == color))).length

/-- `contar_color_total(p, color)`. -/
def contar_color_total (p : Pile) (color : Color) : Nat :=
  (p.filter (fun c => c == color)).length

/-- `colores_base[c].append(i)` on an insertion-ordered dict of lists. -/
def addBase (l : List (Color × List Nat)) (c : Color) (i : Nat) : List (Color × List Nat) :=
  match l with
  | [] => [(c, [i])]
  | (c', l') :: rest => if c' == c then (c', l' ++ [i]) :: rest else (c', l') :: addBase rest c i

/-- One step of the `colores_base` collection loop. -/
def baseStep (estado : State) (acc : List (Color × List Nat)) (i : Nat) :
    List (Color × List Nat) :=
  match obtener_color_base (estado.getD i []) with
  | some c => addBase acc c i
  | none => acc

/-- The `colores_base` dict of `asignar_colores_destino`: for each base color
(first-seen order) the pile indices having it at the bottom, in index order. -/
def colores_base (estado : State) : List (Color × List Nat) :=
  (List.range estado.length).foldl (baseStep estado) []

/-- The hybrid candidate score `3*count + 2*longest run - other colors`. -/
def puntajeHibrido (pila : Pile) (color : Color) : Int :=
  3 * (contar_color_total pila color : Int)
    + 2 * (calcular_racha_mas_larga pila color : Int)
    - (contar_otros_colores pila color : Int)

/-- One step of the candidate loop of `asignar_colores_destino` (the Python
comparison `puntaje > mejor_puntaje` is strict, so the first index wins
exact ties; the initial accumulator `none` plays the role of `-inf`). -/
def mejorStep (estado : State) (color : Color) (acc : Option (Nat × Int)) (idx : Nat) :
    Option (Nat × Int) :=
  let puntaje := puntajeHibrido (estado.getD idx []) color
  match acc with
  | none => some (idx, puntaje)
  | some (b, pb) => if pb < puntaje then some (idx, puntaje) else some (b, pb)

/-- The inner candidate loop of `asignar_colores_destino`. -/
def mejorPerno (estado : State) (color : Color) (indices : List Nat) : Option Nat :=
  (indices.foldl (mejorStep estado color) none).map Prod.fst

/-- One step of the assignment loop of `asignar_colores_destino`; the
accumulator is the pair (asignaciones, colores_asignados). -/
def asignarStep (estado : State) (acc : List (Nat × Color) × List Color)
    (cp : Color × List Nat) : List (Nat × Color) × List Color :=
  if acc.2.contains cp.1 then acc
  else match mejorPerno estado cp.1 cp.2 with
    | some mejor => (acc.1 ++ [(mejor, cp.1)], cp.1 :: acc.2)
    | none => acc

/-- `asignar_colores_destino(estado)`: an insertion-ordered `{perno: color}`
map, assigning each base color to its best-scoring candidate pile. -/
def asignar_colores_destino (estado : State) : List (Nat × Color) :=
  ((colores_base estado).foldl (asignarStep estado)
    (([] : List (Nat × Color)), ([] : List Color))).1

/-- `asignaciones.get(i)` (also used for the `i in asignaciones` tests). -/
def lookupAsig (asig : List (Nat × Color)) (i : Nat) : Option Color :=
  match asig with
  | [] => none
  | (k, c) :: rest => if k == i then some c else lookupAsig rest i

/-- The `bloques` count of `calcular_lower_bound`: number of maximal
same-color runs (computed as 1 + number of adjacent mismatches). -/
def bloques (pila : Pile) : Nat :=
  match pila with
  | [] => 1
  | _ :: rest => 1 + ((pila.zip rest).filter (fun ab => !(ab.1 == ab.2))).length

/-- `calcular_lower_bound(estado, asignaciones)`: the heuristic estimate,
summing missing units, foreign units, trapped units, units elsewhere, and
cleanup cost of unassigned mixed piles. -/
def calcular_lower_bound (estado : State) (asig : List (Nat × Color)) : Int :=
  if is_goal estado then 0
  else
    let m1 : Int := asig.foldl (fun acc pc =>
      let pila_destino := estado.getD pc.1 []
      let tuercas_en_destino := contar_color_total pila_destino pc.2
      let tuercas_faltantes : Int := (MAX_CAP : Int) - (tuercas_en_destino : Int)
      let acc := if 0 < tuercas_faltantes then acc + tuercas_faltantes else acc
      let acc := acc + (contar_otros_colores pila_destino pc.2 : Int)
      if 0 < pila_destino.length then
        if !(obtener_color_base pila_destino == some pc.2) then
          acc + (tuercas_en_destino : Int)
        else acc
      else acc) 0
    let m2 : Int := asig.foldl (fun acc pc =>
      let cnt := (List.range estado.length).foldl (fun c2 i =>
        if !(lookupAsig asig i == some pc.2) then
          c2 + contar_color_total (estado.getD i []) pc.2
        else c2) 0
      if 0 < cnt then acc + (cnt : Int) else acc) m1
    (List.range estado.length).foldl (fun acc i =>
      match lookupAsig asig i with
      | some _ => acc
      | none =>
        let pila := estado.getD i []
        if 0 < pila.length then
          if !pila_es_monocolor pila then acc + (bloques pila : Int) - 1
          else acc
        else acc) m2

/-- The `Counter` of all colors of a state (`contador_colores`). -/
def colorCounts (estado : State) : List (Color × Nat) :=
  estado.foldl (fun acc pila => pila.foldl (fun a c => BT.bump a c) acc) []

/-- `es_estado_imposible(estado, asignaciones)`: some color count exceeds
`MAX_CAP`, or an assigned pile is full with a wrong base color and the free
capacity of the other non-finished piles cannot absorb its foreign units. -/
def es_estado_imposible (estado : State) (asig : List (Nat × Color)) : Bool :=
  if (colorCounts estado).any (fun cc => MAX_CAP < cc.2) then true
  else asig.any (fun pc =>
    let pila := estado.getD pc.1 []
    if pila.length == MAX_CAP && !(obtener_color_base pila == some pc.2) then
      let espacios : Int := ((List.range estado.length).filter (fun j =>
        !(j == pc.1) && !(pila_terminada (estado.getD j [])))).foldl
        (fun a j => a + free_slots (estado.getD j [])) 0
      decide (espacios < (contar_otros_colores pila pc.2 : Int))
    else false)

/-- `SearchStats` of the branch-and-bound engine; `mejor_cota_encontrada`
is `none` while still `math.inf`. -/
structure SearchStats where
  expanded : Nat
  max_depth : Nat
  pruned : Nat
  mejor_cota_encontrada : Option Int
deriving DecidableEq, Repr

/-- A branch-and-bound `Node` (`f = g + h` set by `__post_init__`). -/
structure Node where
  estado : State
  g : Int
  h : Int
  path : List Move
  f : Int
deriving Repr

/-- The `Node` constructor including `__post_init__`. -/
def mkNode (estado : State) (g h : Int) (path : List Move) : Node :=
  { estado := estado, g := g, h := h, path := path, f := g + h }

/-- `Node.__lt__`: by `f`, ties by `g`. -/
def Node.lt (a b : Node) : Bool :=
  if a.f ≠ b.f then decide (a.f < b.f) else decide (a.g < b.g)

/-- Models `heappop`: removes an element that is minimal in the `Node.lt`
order (deterministically the first such element in insertion order; the
`heapq` contract only promises a smallest element). -/
def popMin : List Node → Option (Node × List Node)
  | [] => none
  | n :: rest =>
    match popMin rest with
    | none => some (n, [])
    | some (m, rest2) => if Node.lt m n then some (m, n :: rest2) else some (n, rest)

/-- `generar_movimientos_validos(s)`: all legal moves between distinct
non-finished piles, in index order, without heuristic ordering. -/
def generar_movimientos_validos (s : State) : List Move :=
  let N := s.length
  (List.range N).flatMap (fun i =>
    if pila_terminada (s.getD i []) then []
    else (List.range N).filterMap (fun j =>
      if i == j then none
      else if pila_terminada (s.getD j []) then none
      else if puede_mover (s.getD i []) (s.getD j []) then some (i, j)
      else none))

/-- `f < mejor_costo` where `mejor_costo` may still be `math.inf` (`none`). -/
def ltCosto (f : Int) (costo : Option Int) : Bool :=
  match costo with
  | none => true
  | some c => decide (f < c)

/-- `mejor_g_por_estado` lookup; the Python dict is keyed by `str(s)`, which
is injective on states, so the key is the state itself. -/
def lookupG (l : List (State × Int)) (s : State) : Option Int :=
  match l with
  | [] => none
  | (t, g) :: rest => if t == s then some g else lookupG rest s

/-- `mejor_g_por_estado[s] = g` (replace in place, or append). -/
def setG (l : List (State × Int)) (s : State) (g : Int) : List (State × Int) :=
  match l with
  | [] => [(s, g)]
  | (t, g') :: rest => if t == s then (t, g) :: rest else (t, g') :: setG rest s g

/-- The `for (i, j) in movimientos` expansion loop of the main loop: the
accumulator carries the heap, the best-g map and the pruned counter. -/
def expandChildren (asig : List (Nat × Color)) (nodo : Node)
    (mejor_costo : Option Int) :
    List Move → List Node × List (State × Int) × Nat →
    List Node × List (State × Int) × Nat
  | [], acc => acc
  | (i, j) :: rest, acc =>
    match aplicar_movimiento nodo.estado (i : Int) (j : Int) with
    | .error _ => expandChildren asig nodo mejor_costo rest acc
    | .ok nuevo_estado =>
      let nuevo_g := nodo.g + 1
      let nuevo_h := calcular_lower_bound nuevo_estado asig
      let nuevo_f := nuevo_g + nuevo_h
      if !ltCosto nuevo_f mejor_costo then
        expandChildren asig nodo mejor_costo rest (acc.1, acc.2.1, acc.2.2 + 1)
      else if es_estado_imposible nuevo_estado asig then
        expandChildren asig nodo mejor_costo rest (acc.1, acc.2.1, acc.2.2 + 1)
      else
        match lookupG acc.2.1 nuevo_estado with
        | some gOld =>
          if gOld ≤ nuevo_g then expandChildren asig nodo mejor_costo rest acc
          else
            expandChildren asig nodo mejor_costo rest
              (acc.1 ++ [mkNode nuevo_estado nuevo_g nuevo_h (nodo.path ++ [(i, j)])],
                setG acc.2.1 nuevo_estado nuevo_g, acc.2.2)
        | none =>
          expandChildren asig nodo mejor_costo rest
            (acc.1 ++ [mkNode nuevo_estado nuevo_g nuevo_h (nodo.path ++ [(i, j)])],
              setG acc.2.1 nuevo_estado nuevo_g, acc.2.2)

/-- The `while heap` loop of `solve_branch_and_bound`, with explicit fuel
(`none` = fuel ran out with work remaining). -/
def bnbLoop (asig : List (Nat × Color)) (max_expansions : Option Nat) :
    Nat → List Node → Option (List Move) → Option Int → List (State × Int) → SearchStats →
    Option (Option (List Move) × SearchStats)
  | 0, heap, mejor_solucion, _, _, stats =>
    match heap with
    | [] => some (mejor_solucion, stats)
    | _ :: _ => none
  | fuel + 1, heap, mejor_solucion, mejor_costo, mejor_g, stats =>
    match popMin heap with
    | none => some (mejor_solucion, stats)
    | some (nodo, heap2) =>
      if BT.cutoff max_expansions stats.expanded then some (mejor_solucion, stats)
      else
        let stats1 : SearchStats := { stats with
          expanded := stats.expanded + 1,
          max_depth := max stats.max_depth nodo.path.length }
        if is_goal nodo.estado then
          if ltCosto nodo.g mejor_costo then
            bnbLoop asig max_expansions fuel heap2 (some nodo.path) (some nodo.g) mejor_g
              { stats1 with mejor_cota_encontrada := some nodo.g }
          else
            bnbLoop asig max_expansions fuel heap2 mejor_solucion mejor_costo mejor_g stats1
        else if mejor_costo.isSome && !ltCosto nodo.f mejor_costo then
          bnbLoop asig max_expansions fuel heap2 mejor_solucion mejor_costo mejor_g
            { stats1 with pruned := stats1.pruned + 1 }
        else if es_estado_imposible nodo.estado asig then
          bnbLoop asig max_expansions fuel heap2 mejor_solucion mejor_costo mejor_g
            { stats1 with pruned := stats1.pruned + 1 }
        else
          let res := expandChildren asig nodo mejor_costo
            (generar_movimientos_validos nodo.estado) (heap2, mejor_g, 0)
          bnbLoop asig max_expansions fuel res.1 mejor_solucion mejor_costo res.2.1
            { stats1 with pruned := stats1.pruned + res.2.2 }

/-- `solve_branch_and_bound(start, max_expansions)`. -/
def solve_branch_and_bound (start : State) (max_expansions : Option Nat) (fuel : Nat) :
    Option (Option (List Move) × SearchStats) :=
  let asig := asignar_colores_destino start
  let stats0 : SearchStats :=
    { expanded := 0, max_depth := 0, pruned := 0, mejor_cota_encontrada := none }
  let h_inicial := calcular_lower_bound start asig
  if es_estado_imposible start asig then some (none, stats0)
  else
    bnbLoop asig max_expansions fuel [mkNode start 0 h_inicial []] none none
      [(start, 0)] stats0

end BB

/-! ## Spec-side definitions

These are built from the specification's words (replaying solutions,
legality of a move sequence, true minimal solution length, the multiset of
nuts of a state, and the spec's description of H1/H2) to be compared with
the code-side definitions above. -/

/-- Replaying a move sequence against a state via `aplicar_movimiento`
(`applyMove` in the spec); stops at the first error. -/
def replay (s : State) : List Move → Except PyErr State
  | [] => .ok s
  | mv :: rest =>
    match aplicar_movimiento s (mv.1 : Int) (mv.2 : Int) with
    | .ok t => replay t rest
    | .error _ => .error .valueError

/-- The multiset of all nut colors of a state. -/
def allNuts (s : State) : Multiset Color := (s.flatten : Multiset Color)

/-- All moves that are legal in the spec's sense: an ordered pair of
distinct in-range indices satisfying `canMove`. -/
def movimientos_legales (s : State) : List Move :=
  (List.range s.length).flatMap (fun i =>
    (List.range s.length).filterMap (fun j =>
      if i == j then none
      else if puede_mover (s.getD i []) (s.getD j []) then some (i, j) else none))

/-- All states reachable from `s` by one legal move. -/
def sucesores (s : State) : List State :=
  (movimientos_legales s).filterMap (fun mv =>
    match aplicar_movimiento s (mv.1 : Int) (mv.2 : Int) with
    | .ok t => some t
    | .error _ => none)

/-- All states reachable from `s` by at most `n` legal moves. -/
def alcanzables (s : State) : Nat → List State
  | 0 => [s]
  | n + 1 =>
    let prev := alcanzables s n
    prev ++ (prev.flatMap sucesores).filter (fun t => !prev.contains t)

/-- `ReachesIn s ms t`: replaying the legal move sequence `ms` (distinct
in-range indices, each application succeeding) from `s` ends in `t`. -/
def ReachesIn (s : State) : List Move → State → Prop
  | [], t => t = s
  | mv :: rest, t => ∃ u, mv.1 ≠ mv.2 ∧ mv.1 < s.length ∧ mv.2 < s.length ∧
      aplicar_movimiento s (mv.1 : Int) (mv.2 : Int) = .ok u ∧ ReachesIn u rest t

/-- `ms` is a legal move sequence solving `s`. -/
def SolvesIn (s : State) (ms : List Move) : Prop :=
  ∃ t, ReachesIn s ms t ∧ is_goal t = true

/-- `n` is the true minimum number of moves solving `s` (the minimum over
all legal move sequences reaching a goal state). -/
def IsMinSolLen (s : State) (n : Nat) : Prop :=
  (∃ ms, ms.length = n ∧ SolvesIn s ms) ∧ ∀ ms, SolvesIn s ms → n ≤ ms.length

/-- Spec-side H2 priority tuple, written from the spec's seven clauses
(components in the spec's order; `j = s.length - 1` is the designated
buffer stack, and component 6 is the free room of the destination after
the move). -/
def priority_tuple_spec (s : State) (i j : Nat) : List Int :=
  let p_src := s.getD i []
  let p_dst := s.getD j []
  match top p_src with
  | none => []
  | some c =>
    [ if top p_dst = some c then 0 else 1
    , if top p_dst = some c ∧ j = s.length - 1 then 0 else 1
    , -(run_len_superior (p_dst ++ [c]) : Int)
    , -(run_len_superior p_src : Int)
    , if p_dst ≠ [] then 0 else 1
    , -((MAX_CAP : Int) - ((p_dst.length : Int) + 1))
    , if 1 < p_src.length ∧ pila_es_monocolor p_src = true then 1 else 0 ]

/-- Number of piles of `s` whose top is `c` (the spec's `topFrequency`). -/
def topFreq (s : State) (c : Color) : Nat :=
  (s.filter (fun p => top p == some c)).length

/-- Longest top-run of color `c` in any pile of `s` (the spec's
`bestRunByColor`). -/
def bestTopRun (s : State) (c : Color) : Nat :=
  ((s.filter (fun p => top p == some c)).map run_len_superior).foldr max 0

/-- Index of the first pile of `s` whose top is `c`. -/
def firstTopIdx (s : State) (c : Color) : Nat :=
  s.findIdx (fun p => top p == some c)

/-- `c` appears as the top of some pile of `s`. -/
def IsTopColor (s : State) (c : Color) : Prop := ∃ p ∈ s, top p = some c

/-- Lexicographic `≤` on `(topFrequency, bestRunByColor)` pairs. -/
def pairLex (a b : Nat × Nat) : Prop := a.1 < b.1 ∨ (a.1 = b.1 ∧ a.2 ≤ b.2)

/-- The spec's characterization of the H1 focus color: a top color whose
`(topFrequency, bestRunByColor)` pair is lexicographically maximal, any
remaining tie broken in favor of the color whose first appearance as a
pile top has the lowest pile index. -/
def IsFocoSpec (s : State) (c : Color) : Prop :=
  IsTopColor s c ∧ ∀ c', IsTopColor s c' →
    pairLex (topFreq s c', bestTopRun s c') (topFreq s c, bestTopRun s c) ∧
    ((topFreq s c' = topFreq s c ∧ bestTopRun s c' = bestTopRun s c) →
      firstTopIdx s c ≤ firstTopIdx s c')

/-! ## Helper lemmas about the move primitive -/

theorem puede_mover_ne_nil {p q : Pile} (h : puede_mover p q = true) : p ≠ [] := by
  intro hp
  simp [puede_mover, hp] at h

theorem puede_mover_len {p q : Pile} (h : puede_mover p q = true) : q.length < MAX_CAP := by
  unfold puede_mover at h
  split at h
  · exact absurd h (by simp)
  · split at h
    · exact absurd h (by simp)
    · omega

theorem puede_mover_top {p q : Pile} (h : puede_mover p q = true) (hq : q ≠ []) :
    top p = top q := by
  unfold puede_mover at h
  split at h
  · exact absurd h (by simp)
  · split at h
    · exact absurd h (by simp)
    · rcases Bool.or_eq_true_iff.mp h with h1 | h1
      · exact absurd (List.isEmpty_iff.mp h1) hq
      · exact eq_of_beq h1

theorem pyGet_nat_lt {l : List Pile} {k : Nat} (h : k < l.length) :
    pyGet l (k : Int) = some (l.getD k []) := by
  unfold pyGet pyIdx
  have h1 : (0 ≤ (k : Int) && (k : Int) < (l.length : Int)) = true := by
    simp; exact_mod_cast h
  rw [h1]
  simp [List.getD_eq_getElem?_getD, List.get?_eq_getElem?, List.getElem?_eq_getElem h]

theorem pyGet_nat_ge {l : List Pile} {k : Nat} (h : l.length ≤ k) :
    pyGet l (k : Int) = none := by
  unfold pyGet pyIdx
  have h1 : (0 ≤ (k : Int) && (k : Int) < (l.length : Int)) = false := by
    simp; exact_mod_cast h
  have h2 : ((k : Int) < 0 && 0 ≤ (l.length : Int) + (k : Int)) = false := by
    simp
  rw [h1, h2]
  simp

/-- Success characterization of `aplicar_movimiento` at in-range `Nat`
indices: a legal move pops the source top `c` and appends it to the
destination (destination written last, so an `i = j` self-move keeps the
appended pile). -/
theorem aplicar_nat_ok {s : State} {i j : Nat} (hi : i < s.length) (hj : j < s.length)
    (hm : puede_mover (s.getD i []) (s.getD j []) = true) :
    ∃ c, (s.getD i []).getLast? = some c ∧
      aplicar_movimiento s (i : Int) (j : Int) =
        .ok ((s.set i (s.getD i []).dropLast).set j (s.getD j [] ++ [c])) := by
  obtain ⟨c, hc⟩ := Option.isSome_iff_exists.mp
    (List.getLast?_isSome.mpr (puede_mover_ne_nil hm))
  refine ⟨c, hc, ?_⟩
  unfold aplicar_movimiento
  rw [pyGet_nat_lt hi, pyGet_nat_lt hj]
  simp only [hm, Bool.not_true, if_false]
  have hb : ((i : Int) < 0 || (s.length : Int) ≤ (i : Int) ||
      (j : Int) < 0 || (s.length : Int) ≤ (j : Int)) = false := by
    simp; omega
  simp only [Bool.false_eq_true, if_neg, hb, hc, Int.toNat_natCast]
  simp

/-- Failure of `aplicar_movimiento` at in-range `Nat` indices when the move
is illegal. -/
theorem aplicar_nat_err {s : State} {i j : Nat} (hi : i < s.length) (hj : j < s.length)
    (hm : puede_mover (s.getD i []) (s.getD j []) = false) :
    aplicar_movimiento s (i : Int) (j : Int) = .error .valueError := by
  unfold aplicar_movimiento
  rw [pyGet_nat_lt hi, pyGet_nat_lt hj]
  dsimp only
  rw [hm]
  simp

/-- Inversion: any successful `aplicar_movimiento` call used in-range
non-negative indices, a legal move, and produced the pop-append state. -/
theorem aplicar_ok_inv {s : State} {i j : Int} {t : State}
    (h : aplicar_movimiento s i j = .ok t) :
    ∃ (i' j' : Nat) (c : Color), i = (i' : Int) ∧ j = (j' : Int) ∧
      i' < s.length ∧ j' < s.length ∧
      puede_mover (s.getD i' []) (s.getD j' []) = true ∧
      (s.getD i' []).getLast? = some c ∧
      t = (s.set i' (s.getD i' []).dropLast).set j' (s.getD j' [] ++ [c]) := by
  unfold aplicar_movimiento at h
  rcases hgi : pyGet s i with _ | p_i
  · rw [hgi] at h; exact absurd h (by simp)
  rcases hgj : pyGet s j with _ | p_j
  · rw [hgi, hgj] at h; exact absurd h (by simp)
  rw [hgi, hgj] at h
  dsimp only at h
  rcases hm : puede_mover p_i p_j with _ | _
  · rw [hm] at h; exact absurd h (by simp)
  rw [hm] at h
  simp only [Bool.not_true, Bool.false_eq_true, if_false] at h
  rcases hb : (decide (i < 0) || decide ((s.length : Int) ≤ i) ||
      decide (j < 0) || decide ((s.length : Int) ≤ j)) with _ | _
  · rw [hb] at h
    simp only [Bool.false_eq_true, if_false] at h
    rcases hc : p_i.getLast? with _ | c
    · rw [hc] at h; exact absurd h (by simp)
    rw [hc] at h
    simp only [Except.ok.injEq] at h
    simp only [Bool.or_eq_false_iff, decide_eq_false_iff_not] at hb
    obtain ⟨⟨⟨hi0, hilen⟩, hj0⟩, hjlen⟩ := hb
    have hpi : s.getD i.toNat [] = p_i := by
      have h' := @pyGet_nat_lt s i.toNat (by omega)
      rw [show ((i.toNat : Nat) : Int) = i by omega] at h'
      rw [h'] at hgi; exact Option.some.inj hgi
    have hpj : s.getD j.toNat [] = p_j := by
      have h' := @pyGet_nat_lt s j.toNat (by omega)
      rw [show ((j.toNat : Nat) : Int) = j by omega] at h'
      rw [h'] at hgj; exact Option.some.inj hgj
    refine ⟨i.toNat, j.toNat, c, by omega, by omega, by omega, by omega, ?_, ?_, ?_⟩
    · rw [hpi, hpj]; exact hm
    · rw [hpi]; exact hc
    · rw [hpi, hpj, ← h]
  · rw [hb] at h
    exact absurd h (by simp)

/-- The defensive re-validations of the backtracking `aplicar_movimiento`
never fire beyond what `puede_mover` already guarantees: both versions of
the function are extensionally equal. -/
theorem aplicar_movimiento_bt_eq (s : State) (i j : Int) :
    BT.aplicar_movimiento s i j = aplicar_movimiento s i j := by
  simp only [BT.aplicar_movimiento, aplicar_movimiento]
  rcases pyGet s i with _ | p_i
  · rfl
  rcases pyGet s j with _ | p_j
  · rfl
  dsimp only
  rcases hm : puede_mover p_i p_j with _ | _
  · rfl
  rcases hb : (decide (i < 0) || decide ((s.length : Int) ≤ i) ||
      decide (j < 0) || decide ((s.length : Int) ≤ j)) with _ | _
  case true => rfl
  case false =>
    simp only [Bool.not_true, Bool.false_eq_true, if_false]
    rcases hc : p_i.getLast? with _ | c
    · rfl
    dsimp only
    have hlen : p_j.length < MAX_CAP := puede_mover_len hm
    have hlast : p_j ≠ [] → p_j.getLast? = some c := by
      intro hq
      have htop : top p_i = top p_j := puede_mover_top hm hq
      unfold top at htop
      rw [← htop, hc]
    have hcheck1 : (match p_j.getLast? with | some d => !(c == d) | none => false) = false := by
      rcases hq : p_j with _ | ⟨x, q⟩
      · simp
      · rw [← hq, hlast (by simp [hq])]
        simp
    rw [hcheck1]
    simp only [Bool.false_eq_true, if_false]
    have hcheck2 :
        (1 < (p_j ++ [c]).length && !((p_j ++ [c]).getLast? == p_j.getLast?)) = false := by
      rcases hq : p_j with _ | ⟨x, q⟩
      · simp
      · rw [← hq, List.getLast?_concat, hlast (by simp [hq])]
        simp
    rw [hcheck2]
    simp only [Bool.false_eq_true, if_false]
    have hcheck3 : ¬ MAX_CAP < (p_j ++ [c]).length := by
      simp only [List.length_append, List.length_cons, List.length_nil]
      omega
    rw [if_neg hcheck3]

/-- `allNuts` of a cons. -/
theorem allNuts_cons (p : Pile) (l : State) :
    allNuts (p :: l) = (p : Multiset Color) + allNuts l := by
  simp [allNuts]

/-- Updating one pile exchanges its contents inside `allNuts`. -/
theorem allNuts_set (l : State) (k : Nat) (p : Pile) (h : k < l.length) :
    allNuts (l.set k p) + (l.getD k [] : Multiset Color) =
      allNuts l + (p : Multiset Color) := by
  induction l generalizing k with
  | nil => simp at h
  | cons a l ih =>
    cases k with
    | zero =>
      simp only [List.set, allNuts_cons, List.getD_cons_zero]
      abel
    | succ k =>
      simp only [List.set, allNuts_cons, List.getD_cons_succ]
      have hk : k < l.length := by simpa using h
      rw [add_assoc, ih k hk, ← add_assoc]

/-- A pile is its own drop-last plus its last element. -/
theorem pile_eq_dropLast_concat {p : Pile} {c : Color} (h : p.getLast? = some c) :
    p = p.dropLast ++ [c] := by
  have hne : p ≠ [] := by
    intro hp; rw [hp] at h; simp at h
  have h2 := List.dropLast_append_getLast hne
  rw [List.getLast?_eq_getLast p hne] at h
  rw [Option.some.inj h] at h2
  exact h2.symm

theorem getD_mem {s : State} {k : Nat} (h : k < s.length) : s.getD k [] ∈ s := by
  have he : s.getD k [] = s[k] := by
    simp [List.getD_eq_getElem?_getD, List.getElem?_eq_getElem h]
  rw [he]
  exact List.getElem_mem h

theorem coe_concat_multiset (l : List Color) (c : Color) :
    ((l ++ [c] : List Color) : Multiset Color) =
      (l : Multiset Color) + ([c] : Multiset Color) := rfl

/-! ## Claim theorems -/

/-- C3 counterexample: on the state `[["R"]]` with `i = j = 0` the move is
"legal" in the claim's sense (`puede_mover` holds of the pile against
itself), yet both versions of `aplicar_movimiento` duplicate the top nut,
so the multiset of colors is not preserved. -/
theorem C3_counterexample :
    puede_mover ([["R"]] : State).head! ([["R"]] : State).head! = true ∧
    aplicar_movimiento [["R"]] 0 0 = .ok [["R", "R"]] ∧
    BT.aplicar_movimiento [["R"]] 0 0 = .ok [["R", "R"]] ∧
    allNuts [["R", "R"]] ≠ allNuts [["R"]] := by
  refine ⟨by decide, rfl, rfl, by decide⟩

/-- C3 (amended: the two indices must be distinct): a legal move between two
distinct in-range piles preserves the multiset of colors across all piles,
for both engines' `aplicar_movimiento`. -/
theorem C3_conservation (s : State) (i j : Nat) (hne : i ≠ j)
    (hi : i < s.length) (hj : j < s.length)
    (hm : puede_mover (s.getD i []) (s.getD j []) = true) :
    ∃ t, aplicar_movimiento s (i : Int) (j : Int) = .ok t ∧
      BT.aplicar_movimiento s (i : Int) (j : Int) = .ok t ∧
      allNuts t = allNuts s := by
  obtain ⟨c, hc, hok⟩ := aplicar_nat_ok hi hj hm
  refine ⟨_, hok, by rw [aplicar_movimiento_bt_eq]; exact hok, ?_⟩
  have hlen1 : j < (s.set i ((s.getD i []).dropLast)).length := by simpa using hj
  have h1 := allNuts_set (s.set i ((s.getD i []).dropLast)) j (s.getD j [] ++ [c]) hlen1
  have hgj : (s.set i ((s.getD i []).dropLast)).getD j [] = s.getD j [] := by
    simp [List.getD_eq_getElem?_getD, List.getElem?_set_ne hne]
  rw [hgj, coe_concat_multiset] at h1
  have h2 := allNuts_set s i ((s.getD i []).dropLast) hi
  have hsplit : ((s.getD i []).dropLast : Multiset Color) + ([c] : Multiset Color) =
      (s.getD i [] : Multiset Color) := by
    have he : ((s.getD i []).dropLast ++ [c] : List Color) = s.getD i [] :=
      (pile_eq_dropLast_concat hc).symm
    rw [← coe_concat_multiset, he]
  have e2 : allNuts (s.set i ((s.getD i []).dropLast)) + ([c] : Multiset Color) = allNuts s := by
    have h3 : allNuts (s.set i ((s.getD i []).dropLast)) + ([c] : Multiset Color) +
        ((s.getD i []).dropLast : Multiset Color) =
        allNuts s + ((s.getD i []).dropLast : Multiset Color) := by
      calc allNuts (s.set i ((s.getD i []).dropLast)) + ([c] : Multiset Color) +
            ((s.getD i []).dropLast : Multiset Color)
          = allNuts (s.set i ((s.getD i []).dropLast)) +
            (((s.getD i []).dropLast : Multiset Color) + ([c] : Multiset Color)) := by abel
        _ = allNuts (s.set i ((s.getD i []).dropLast)) + (s.getD i [] : Multiset Color) := by
            rw [hsplit]
        _ = allNuts s + ((s.getD i []).dropLast : Multiset Color) := h2
    exact add_right_cancel h3
  have h4 : allNuts ((s.set i ((s.getD i []).dropLast)).set j (s.getD j [] ++ [c])) +
      (s.getD j [] : Multiset Color) = allNuts s + (s.getD j [] : Multiset Color) := by
    rw [h1, ← e2]
    abel
  exact add_right_cancel h4

/-- C3 witness: a concrete legal move between distinct piles, with the
conservation conclusion evaluated. -/
theorem C3_conservation_witness :
    (0 : Nat) ≠ 1 ∧
    puede_mover (([["R"], ["R"]] : State).getD 0 []) (([["R"], ["R"]] : State).getD 1 []) =
      true ∧
    ∃ t, aplicar_movimiento [["R"], ["R"]] 0 1 = .ok t ∧
      BT.aplicar_movimiento [["R"], ["R"]] 0 1 = .ok t ∧
      allNuts t = allNuts [["R"], ["R"]] :=
  ⟨by decide, by decide,
    C3_conservation [["R"], ["R"]] 0 1 (by decide) (by decide) (by decide) (by decide)⟩

/-- C4: the code is wrong on `i == j`. At the failing input
`aplicar_movimiento([("R","G")], 0, 0)` both versions return normally —
duplicating the top nut into `[("R","G","G")]` — although the claim (and
the spec, which the function's own validation comments also intend)
requires an illegal-move error whenever `i == j`. -/
theorem C4_self_move_returns :
    aplicar_movimiento [["R", "G"]] 0 0 = .ok [["R", "G", "G"]] ∧
    BT.aplicar_movimiento [["R", "G"]] 0 0 = .ok [["R", "G", "G"]] := by
  refine ⟨rfl, rfl⟩

/-- C5: starting from a state whose piles all respect `MAX_CAP`, any normal
return of either version of `aplicar_movimiento` again has every pile of
length at most `MAX_CAP`, and the moved nut landed on a destination that
was empty or whose previous top had the moved color. -/
theorem C5_no_malformed_stack (s : State) (i j : Int) (t : State)
    (hcap : ∀ p ∈ s, p.length ≤ MAX_CAP)
    (h : aplicar_movimiento s i j = .ok t ∨ BT.aplicar_movimiento s i j = .ok t) :
    (∀ p ∈ t, p.length ≤ MAX_CAP) ∧
    ∃ (i' j' : Nat) (c : Color), i = (i' : Int) ∧ j = (j' : Int) ∧
      top (s.getD i' []) = some c ∧
      (s.getD j' [] = [] ∨ top (s.getD j' []) = some c) := by
  have h' : aplicar_movimiento s i j = .ok t := by
    rcases h with h | h
    · exact h
    · rw [aplicar_movimiento_bt_eq] at h; exact h
  obtain ⟨i', j', c, hieq, hjeq, hil, hjl, hm, hc, ht⟩ := aplicar_ok_inv h'
  constructor
  · intro p hp
    subst ht
    rcases List.mem_or_eq_of_mem_set hp with hp1 | hp1
    · rcases List.mem_or_eq_of_mem_set hp1 with hp2 | hp2
      · exact hcap p hp2
      · subst hp2
        have hle : (s.getD i' []).length ≤ MAX_CAP := hcap _ (getD_mem hil)
        have := List.length_dropLast (s.getD i' [])
        omega
    · subst hp1
      have hlt := puede_mover_len hm
      simp only [List.length_append, List.length_cons, List.length_nil]
      omega
  · refine ⟨i', j', c, hieq, hjeq, hc, ?_⟩
    rcases hq : s.getD j' [] with _ | ⟨x, q⟩
    · exact Or.inl rfl
    · refine Or.inr ?_
      have := puede_mover_top hm (by rw [hq]; simp)
      rw [← hq, ← this]
      exact hc

/-- C5 witness: a concrete legal move, with both hypotheses discharged. -/
theorem C5_witness :
    (∀ p ∈ ([["R"], ["R"]] : State), p.length ≤ MAX_CAP) ∧
    ((∀ p ∈ ([[], ["R", "R"]] : State), p.length ≤ MAX_CAP) ∧
      ∃ (i' j' : Nat) (c : Color), (0 : Int) = (i' : Int) ∧ (1 : Int) = (j' : Int) ∧
        top (([["R"], ["R"]] : State).getD i' []) = some c ∧
        (([["R"], ["R"]] : State).getD j' [] = [] ∨
          top (([["R"], ["R"]] : State).getD j' []) = some c)) :=
  ⟨by decide,
    C5_no_malformed_stack [["R"], ["R"]] 0 1 [[], ["R", "R"]] (by decide)
      (Or.inl rfl)⟩

/-! ## Budget behavior of the backtracking engine (C6, C7) -/

/-- Once the counter would reach the budget, a `dfs` call cuts off
immediately: it returns no solution before even checking the goal. -/
theorem dfs_cutoff_now (m fuel : Nat) (s : State) (path : List Move)
    (last : Option Move) (v : List State) (st : BT.SearchStats)
    (hm : m ≠ 0) (hle : m ≤ st.expanded + 1) :
    BT.dfs (some m) (fuel + 1) s path last v st =
      some (none, v, { expanded := st.expanded + 1,
                       max_depth := max st.max_depth path.length }) := by
  unfold BT.dfs
  have hcut : BT.cutoff (some m) (st.expanded + 1) = true := by
    simp [BT.cutoff, hm, hle]
  simp only [hcut, if_true]

/-- If every recursive call reports solutions only with a final counter
below the budget, so does the move loop. -/
theorem tryMoves_sol_lt (m : Nat)
    (next : State → List Move → Option Move → List State → BT.SearchStats →
      Option BT.DfsRes)
    (hnext : ∀ s p l v st sol v2 st2,
      next s p l v st = some (some sol, v2, st2) → st2.expanded < m) :
    ∀ (moves : List Move) (s : State) (path : List Move) (last : Option Move)
      (v : List State) (st : BT.SearchStats) (sol : List Move)
      (v2 : List State) (st2 : BT.SearchStats),
      BT.tryMoves next s path last moves v st = some (some sol, v2, st2) →
      st2.expanded < m := by
  intro moves
  induction moves with
  | nil =>
    intro s path last v st sol v2 st2 h
    unfold BT.tryMoves at h
    simp at h
  | cons mv rest ih =>
    intro s path last v st sol v2 st2 h
    obtain ⟨i, j⟩ := mv
    unfold BT.tryMoves at h
    split at h
    · exact ih _ _ _ _ _ _ _ _ h
    split at h
    · exact ih _ _ _ _ _ _ _ _ h
    split at h
    · exact ih _ _ _ _ _ _ _ _ h
    split at h
    · exact ih _ _ _ _ _ _ _ _ h
    rename_i nuevo hap hvis
    split at h
    · exact absurd h (by simp)
    · rename_i res v3 st3 hnext_eq
      injection h with h'
      cases h'
      exact hnext _ _ _ _ _ _ _ _ hnext_eq
    · exact ih _ _ _ _ _ _ _ _ h

/-- A `dfs` call that reports a solution finished with its expansion
counter strictly below the budget: the goal check only runs after the
cutoff check passed. -/
theorem dfs_sol_lt (m : Nat) (hm : m ≠ 0) :
    ∀ (fuel : Nat) (s : State) (path : List Move) (last : Option Move)
      (v : List State) (st : BT.SearchStats) (sol : List Move)
      (v2 : List State) (st2 : BT.SearchStats),
      BT.dfs (some m) fuel s path last v st = some (some sol, v2, st2) →
      st2.expanded < m := by
  intro fuel
  induction fuel with
  | zero =>
    intro s path last v st sol v2 st2 h
    unfold BT.dfs at h
    simp at h
  | succ fuel ih =>
    intro s path last v st sol v2 st2 h
    unfold BT.dfs at h
    dsimp only at h
    split at h
    · exact absurd h (by simp)
    · rename_i hcut
      rw [Bool.not_eq_true] at hcut
      split at h
      · injection h with h'
        cases h'
        simp [BT.cutoff, hm] at hcut
        show st.expanded + 1 < m
        omega
      · exact tryMoves_sol_lt m _ (fun s' p' l' v' st' sol' v2' st2' hh =>
          ih s' p' l' v' st' sol' v2' st2' hh) _ _ _ _ _ _ _ _ _ h

/-- C6 (amended): once the expansion counter has reached `maxExpansions`,
any further `dfs` call returns "no solution" at once, before the goal
check (the call itself still increments the counter, see the
counterexample); in particular a run with `maxExpansions = 1` always
returns no solution with `expanded = 1`. -/
theorem C6_budget_halts :
    (∀ (m fuel : Nat) (s : State) (path : List Move) (last : Option Move)
        (v : List State) (st : BT.SearchStats), m ≠ 0 → m ≤ st.expanded + 1 →
        BT.dfs (some m) (fuel + 1) s path last v st =
          some (none, v, { expanded := st.expanded + 1,
                           max_depth := max st.max_depth path.length })) ∧
    (∀ (start : State) (fuel : Nat),
        BT.solve_backtracking start (some 1) (fuel + 1) =
          some (none, { expanded := 1, max_depth := 0 })) := by
  constructor
  · exact fun m fuel s path last v st hm hle => dfs_cutoff_now m fuel s path last v st hm hle
  · intro start fuel
    unfold BT.solve_backtracking
    rw [dfs_cutoff_now 1 fuel start [] none [start] { expanded := 0, max_depth := 0 }
      (by decide) (by decide)]
    rfl

/-- C6 witness: the cutoff fact applied at a concrete state with the
counter already at the budget, and a solvable (already solved) instance
run with budget 1 returning no solution. -/
theorem C6_budget_halts_witness :
    BT.dfs (some 1) 5 [["R"]] [] none [[["R"]]] { expanded := 0, max_depth := 0 } =
      some (none, [[["R"]]], { expanded := 1, max_depth := 0 }) ∧
    BT.solve_backtracking [["R", "R", "R", "R", "R"]] (some 1) 3 =
      some (none, { expanded := 1, max_depth := 0 }) :=
  ⟨C6_budget_halts.1 1 4 [["R"]] [] none [[["R"]]] { expanded := 0, max_depth := 0 }
      (by decide) (by decide),
    C6_budget_halts.2 [["R", "R", "R", "R", "R"]] 2⟩

/-- C6 counterexample: the claim's "no further states are counted as
expanded" is false.  With budget 2 on `[["R"], [], []]` the counter
reaches 2 inside the first child, but the parent still tries (and counts)
the second child, so the returned stats report `expanded = 3 > 2`. -/
theorem C6_counterexample :
    BT.solve_backtracking [["R"], [], []] (some 2) 10 =
      some (none, { expanded := 3, max_depth := 1 }) ∧ 2 < 3 := ⟨rfl, by decide⟩

/-- C7: when an engine stops under a budget `m`, a run halted by reaching
the budget ends with `expanded ≥ m` and never carries a solution, while a
run that exhausted the reachable states without reaching the budget ends
with `expanded < m`; hence no such pair of same-budget runs can return
identical (result, statistics) values, for either engine. -/
theorem C7_inconclusive_distinct :
    (∀ (s : State) (m fuel : Nat) (r : Option (List Move)) (st : BT.SearchStats),
        BT.solve_backtracking s (some m) fuel = some (r, st) → m ≠ 0 →
        m ≤ st.expanded → r = none) ∧
    (∀ (s1 s2 : State) (m f1 f2 : Nat)
        (o1 o2 : Option (List Move) × BT.SearchStats),
        BT.solve_backtracking s1 (some m) f1 = some o1 →
        BT.solve_backtracking s2 (some m) f2 = some o2 →
        m ≤ o1.2.expanded → o2.2.expanded < m → o1 ≠ o2) ∧
    (∀ (s1 s2 : State) (m f1 f2 : Nat)
        (o1 o2 : Option (List Move) × BB.SearchStats),
        BB.solve_branch_and_bound s1 (some m) f1 = some o1 →
        BB.solve_branch_and_bound s2 (some m) f2 = some o2 →
        m ≤ o1.2.expanded → o2.2.expanded < m → o1 ≠ o2) := by
  refine ⟨?_, ?_, ?_⟩
  · intro s m fuel r st hrun hm hle
    unfold BT.solve_backtracking at hrun
    rcases hd : (BT.dfs (some m) fuel s [] none [s] { expanded := 0, max_depth := 0 } :
        Option BT.DfsRes) with _ | res
    · rw [hd] at hrun; exact absurd hrun (by simp)
    · rw [hd] at hrun
      obtain ⟨rsol, rv, rst⟩ := res
      have hrun' : (some (rsol, rst) : Option (Option (List Move) × BT.SearchStats)) =
          some (r, st) := hrun
      injection hrun' with h'
      have he1 : rsol = r := congrArg Prod.fst h'
      have he2 : rst = st := congrArg Prod.snd h'
      subst he1
      subst he2
      rcases rsol with _ | sol'
      · rfl
      · have := dfs_sol_lt m hm fuel s [] none [s] { expanded := 0, max_depth := 0 }
          sol' rv rst hd
        omega
  · intro s1 s2 m f1 f2 o1 o2 h1 h2 hge hlt heq
    rw [heq] at hge
    omega
  · intro s1 s2 m f1 f2 o1 o2 h1 h2 hge hlt heq
    rw [heq] at hge
    omega

/-- C7 witness: concrete same-budget runs — budget-halted versus
state-space-exhausted — for both engines, with distinct statistics. -/
theorem C7_inconclusive_distinct_witness :
    (none : Option (List Move)) = none ∧
    ((none, { expanded := 3, max_depth := 1 }) :
        Option (List Move) × BT.SearchStats) ≠
      (none, { expanded := 1, max_depth := 0 }) ∧
    ((none, { expanded := 2, max_depth := 1, pruned := 0,
              mejor_cota_encontrada := none }) :
        Option (List Move) × BB.SearchStats) ≠
      (none, { expanded := 1, max_depth := 0, pruned := 0,
               mejor_cota_encontrada := none }) :=
  ⟨C7_inconclusive_distinct.1 [["R"]] 1 3 none { expanded := 1, max_depth := 0 } rfl
      (by decide) (by decide),
    C7_inconclusive_distinct.2.1 [["R"], [], []] [["R"]] 2 10 10
      (none, { expanded := 3, max_depth := 1 }) (none, { expanded := 1, max_depth := 0 })
      rfl rfl (by decide) (by decide),
    C7_inconclusive_distinct.2.2 [["R"], [], []] [["R"]] 2 100 100
      (none, { expanded := 2, max_depth := 1, pruned := 0, mejor_cota_encontrada := none })
      (none, { expanded := 1, max_depth := 0, pruned := 0, mejor_cota_encontrada := none })
      rfl rfl (by decide) (by decide)⟩

/-! ## Destination-assignment facts and the already-solved scenario (C8) -/

theorem addBase_prop {P : Color → Nat → Prop} :
    ∀ (l : List (Color × List Nat)), (∀ p ∈ l, ∀ i ∈ p.2, P p.1 i) →
    ∀ {c : Color} {k : Nat}, P c k →
    ∀ p ∈ BB.addBase l c k, ∀ i ∈ p.2, P p.1 i := by
  intro l
  induction l with
  | nil =>
    intro _ c k hk p hp i hi
    unfold BB.addBase at hp
    simp only [List.mem_singleton] at hp
    subst hp
    simp only [List.mem_singleton] at hi
    subst hi
    exact hk
  | cons q rest ih =>
    intro hl c k hk p hp i hi
    obtain ⟨c', l'⟩ := q
    unfold BB.addBase at hp
    by_cases hc : (c' == c) = true
    · rw [if_pos hc] at hp
      rcases List.mem_cons.mp hp with hp1 | hp1
      · subst hp1
        rcases List.mem_append.mp hi with hi1 | hi1
        · exact hl (c', l') (List.mem_cons_self _ _) i hi1
        · simp only [List.mem_singleton] at hi1
          subst hi1
          rw [eq_of_beq hc]
          exact hk
      · exact hl p (List.mem_cons_of_mem _ hp1) i hi
    · rw [if_neg hc] at hp
      rcases List.mem_cons.mp hp with hp1 | hp1
      · subst hp1
        exact hl (c', l') (List.mem_cons_self _ _) i hi
      · exact ih (fun r hr => hl r (List.mem_cons_of_mem _ hr)) hk p hp1 i hi

theorem colores_base_sound (estado : State) :
    ∀ p ∈ BB.colores_base estado, ∀ i ∈ p.2,
      BB.obtener_color_base (estado.getD i []) = some p.1 := by
  have main : ∀ (idxs : List Nat) (acc : List (Color × List Nat)),
      (∀ p ∈ acc, ∀ i ∈ p.2, BB.obtener_color_base (estado.getD i []) = some p.1) →
      ∀ p ∈ idxs.foldl (BB.baseStep estado) acc, ∀ i ∈ p.2,
        BB.obtener_color_base (estado.getD i []) = some p.1 := by
    intro idxs
    induction idxs with
    | nil => intro acc hacc; exact hacc
    | cons k rest ih =>
      intro acc hacc
      simp only [List.foldl_cons]
      have hstep : ∀ p ∈ BB.baseStep estado acc k, ∀ i ∈ p.2,
          BB.obtener_color_base (estado.getD i []) = some p.1 := by
        unfold BB.baseStep
        rcases hbase : BB.obtener_color_base (estado.getD k []) with _ | c
        · exact hacc
        · exact @addBase_prop (fun c i => BB.obtener_color_base (estado.getD i []) = some c)
            acc hacc c k hbase
      exact ih _ hstep
  exact main (List.range estado.length) [] (by simp)

theorem foldBest_mem (estado : State) (color : Color) (P : Nat → Prop) :
    ∀ (idxs : List Nat) (acc : Option (Nat × Int)),
      (∀ b pb, acc = some (b, pb) → P b) → (∀ i ∈ idxs, P i) →
      ∀ b pb, idxs.foldl (BB.mejorStep estado color) acc = some (b, pb) → P b := by
  intro idxs
  induction idxs with
  | nil =>
    intro acc hacc _ b pb h
    exact hacc b pb h
  | cons k rest ih =>
    intro acc hacc hmem b pb h
    simp only [List.foldl_cons] at h
    refine ih _ ?_ (fun i hi => hmem i (List.mem_cons_of_mem _ hi)) b pb h
    intro b' pb' hacc'
    unfold BB.mejorStep at hacc'
    rcases acc with _ | ⟨b0, pb0⟩
    · dsimp only at hacc'
      injection hacc' with h'
      injection h' with h1 h2
      subst h1
      exact hmem k (List.mem_cons_self _ _)
    · dsimp only at hacc'
      split at hacc'
      · injection hacc' with h'
        injection h' with h1 h2
        subst h1
        exact hmem k (List.mem_cons_self _ _)
      · injection hacc' with h'
        injection h' with h1 h2
        subst h1
        exact hacc b0 pb0 rfl

theorem mejorPerno_mem {estado : State} {color : Color} {idxs : List Nat} {k : Nat}
    (h : BB.mejorPerno estado color idxs = some k) : k ∈ idxs := by
  unfold BB.mejorPerno at h
  rcases hf : idxs.foldl (BB.mejorStep estado color) none with _ | bp
  · rw [hf] at h; exact absurd h (by simp)
  · rw [hf] at h
    obtain ⟨b, pb⟩ := bp
    have h2 : (some b : Option Nat) = some k := h
    injection h2 with h'
    subst h'
    exact foldBest_mem estado color (fun b => b ∈ idxs) idxs none (by simp)
      (fun i hi => hi) b pb hf

/-- Every entry of `asignar_colores_destino` assigns to a pile its own base
color (assignments are computed from the anchors, so the assigned pile's
bottom nut always has the assigned color). -/
theorem asignar_sound (estado : State) :
    ∀ pc ∈ BB.asignar_colores_destino estado,
      BB.obtener_color_base (estado.getD pc.1 []) = some pc.2 := by
  have main : ∀ (entries : List (Color × List Nat)),
      (∀ p ∈ entries, ∀ i ∈ p.2, BB.obtener_color_base (estado.getD i []) = some p.1) →
      ∀ (acc : List (Nat × Color) × List Color),
      (∀ pc ∈ acc.1, BB.obtener_color_base (estado.getD pc.1 []) = some pc.2) →
      ∀ pc ∈ (entries.foldl (BB.asignarStep estado) acc).1,
        BB.obtener_color_base (estado.getD pc.1 []) = some pc.2 := by
    intro entries
    induction entries with
    | nil => intro _ acc hacc; exact hacc
    | cons cp rest ih =>
      intro hent acc hacc
      simp only [List.foldl_cons]
      have hstep : ∀ pc ∈ (BB.asignarStep estado acc cp).1,
          BB.obtener_color_base (estado.getD pc.1 []) = some pc.2 := by
        unfold BB.asignarStep
        by_cases hcont : acc.2.contains cp.1 = true
        · rw [if_pos hcont]
          exact hacc
        · rw [if_neg hcont]
          rcases hmp : BB.mejorPerno estado cp.1 cp.2 with _ | mejor
          · exact hacc
          · intro pc hpc
            rcases List.mem_append.mp hpc with hpc1 | hpc1
            · exact hacc pc hpc1
            · simp only [List.mem_singleton] at hpc1
              subst hpc1
              exact hent cp (List.mem_cons_self _ _) mejor (mejorPerno_mem hmp)
      exact ih (fun r hr => hent r (List.mem_cons_of_mem _ hr)) _ hstep
  exact main (BB.colores_base estado) (colores_base_sound estado) ([], []) (by simp)

theorem bnbLoop_empty (asig : List (Nat × Color)) (me : Option Nat) (fuel : Nat)
    (best : Option (List Move)) (costo : Option Int) (g : List (State × Int))
    (stats : BB.SearchStats) :
    BB.bnbLoop asig me fuel [] best costo g stats = some (best, stats) := by
  cases fuel <;> rfl

/-- A single-node queue whose node is a goal: the branch-and-bound loop
records it as the best solution and then the queue empties. -/
theorem bnbLoop_single_goal (asig : List (Nat × Color)) (fuel : Nat) (n : BB.Node)
    (g : List (State × Int)) (hgoal : is_goal n.estado = true) :
    BB.bnbLoop asig none (fuel + 1) [n] none none g
      { expanded := 0, max_depth := 0, pruned := 0, mejor_cota_encontrada := none } =
      some (some n.path, { expanded := 1, max_depth := max 0 n.path.length, pruned := 0,
                           mejor_cota_encontrada := some n.g }) := by
  unfold BB.bnbLoop
  have hpop : BB.popMin [n] = some (n, []) := rfl
  rw [hpop]
  dsimp only
  rw [show BT.cutoff none 0 = false from rfl]
  simp only [Bool.false_eq_true, if_false, hgoal, if_true]
  rw [show BB.ltCosto n.g none = true from rfl]
  simp only [if_true]
  exact bnbLoop_empty asig none fuel (some n.path) (some n.g) g _

/-- C8 counterexample: the state with two full piles of the same color is a
goal state (`is_goal` is true), yet the branch-and-bound engine declares it
impossible (a color totals more than `MAX_CAP`) and returns no solution
with `expanded = 0`, not the empty move sequence with `expanded = 1`. -/
theorem C8_counterexample :
    is_goal [["R", "R", "R", "R", "R"], ["R", "R", "R", "R", "R"]] = true ∧
    BB.solve_branch_and_bound [["R", "R", "R", "R", "R"], ["R", "R", "R", "R", "R"]]
        none 5 =
      some (none, { expanded := 0, max_depth := 0, pruned := 0,
                    mejor_cota_encontrada := none }) := ⟨by decide, rfl⟩

/-- C8 (amended: provided no color's total count exceeds `MAX_CAP`): on an
already-solved input with the budget omitted, both engines return the
empty move sequence with statistics reporting `expanded = 1`. -/
theorem C8_already_solved (s : State) (fuel : Nat) (hg : is_goal s = true)
    (hcnt : ∀ cc ∈ BB.colorCounts s, cc.2 ≤ MAX_CAP) :
    BT.solve_backtracking s none (fuel + 1) =
      some (some [], { expanded := 1, max_depth := 0 }) ∧
    BB.solve_branch_and_bound s none (fuel + 1) =
      some (some [], { expanded := 1, max_depth := 0, pruned := 0,
                       mejor_cota_encontrada := some 0 }) := by
  constructor
  · unfold BT.solve_backtracking BT.dfs
    dsimp only
    rw [show BT.cutoff none (0 + 1) = false from rfl]
    simp only [Bool.false_eq_true, if_false, hg, if_true]
    rfl
  · have hasig := asignar_sound s
    have himp : BB.es_estado_imposible s (BB.asignar_colores_destino s) = false := by
      unfold BB.es_estado_imposible
      have h1 : ((BB.colorCounts s).any fun cc => decide (MAX_CAP < cc.2)) = false := by
        rw [List.any_eq_false]
        intro cc hcc
        simpa using hcnt cc hcc
      rw [h1]
      simp only [Bool.false_eq_true, if_false]
      rw [List.any_eq_false]
      intro pc hpc
      simp only [Bool.and_eq_true, beq_iff_eq, Bool.not_eq_true', beq_eq_false_iff_ne, ne_eq,
        decide_eq_true_eq]
      intro hfull
      rw [if_neg (fun hcond => hcond.2 (hasig pc hpc))] at hfull
      exact absurd hfull (by simp)
    unfold BB.solve_branch_and_bound
    dsimp only
    rw [himp]
    simp only [Bool.false_eq_true, if_false]
    have hlb : BB.calcular_lower_bound s (BB.asignar_colores_destino s) = 0 := by
      unfold BB.calcular_lower_bound
      rw [hg]
      rfl
    rw [hlb]
    exact bnbLoop_single_goal (BB.asignar_colores_destino s) fuel (BB.mkNode s 0 0 [])
      [(s, 0)] hg

/-- C8 witness: a concrete already-solved input (one full pile, one empty)
satisfying the amended hypotheses. -/
theorem C8_already_solved_witness :
    BT.solve_backtracking [["R", "R", "R", "R", "R"], []] none 4 =
      some (some [], { expanded := 1, max_depth := 0 }) ∧
    BB.solve_branch_and_bound [["R", "R", "R", "R", "R"], []] none 4 =
      some (some [], { expanded := 1, max_depth := 0, pruned := 0,
                       mejor_cota_encontrada := some 0 }) :=
  C8_already_solved [["R", "R", "R", "R", "R"], []] 3 (by decide) (by decide)

/-! ## H2 priority tuple (C9) -/

/-- The seventh component: the code's break-pure test equals the spec's
"breaks a monochrome source stack of length > 1". -/
theorem break_pure_eq (p : Pile) :
    (if (decide (1 < p.length) && p.all (fun x => p.head? == some x)) = true
      then (1 : Int) else 0) =
    (if 1 < p.length ∧ pila_es_monocolor p = true then (1 : Int) else 0) := by
  by_cases hlen : 1 < p.length
  · have hmono : pila_es_monocolor p = p.all (fun x => p.head? == some x) := by
      unfold pila_es_monocolor
      rw [if_neg (by omega)]
    by_cases hall : p.all (fun x => p.head? == some x) = true
    · simp [hlen, hall, hmono]
    · simp only [Bool.not_eq_true] at hall
      simp [hlen, hall, hmono]
  · simp [hlen]

/-- C9: for any candidate move with a non-empty source pile, the code's
`priority_tuple` equals the seven-component tuple described by the spec,
component by component and in the spec's order. -/
theorem C9_priority_tuple (s : State) (i j : Nat)
    (hsrc : s.getD i [] ≠ []) :
    BT.priority_tuple s i j = priority_tuple_spec s i j := by
  rcases hc : top (s.getD i []) with _ | c
  · exfalso
    apply hsrc
    rcases hnil : s.getD i [] with _ | ⟨a, l⟩
    · rfl
    · rw [hnil] at hc
      unfold top at hc
      simp at hc
  · simp only [BT.priority_tuple, priority_tuple_spec, hc]
    simp only [List.cons.injEq, and_true]
    refine ⟨?_, ?_, trivial, trivial, ?_, ?_, ?_⟩
    · rcases hq : s.getD j [] with _ | ⟨d, ds⟩
      · simp [top]
      · simp [top]
    · rcases hq : s.getD j [] with _ | ⟨d, ds⟩
      · simp [top]
      · by_cases ht : top (d :: ds) = some c
        · simp [ht]
        · simp [ht]
    · rcases hq : s.getD j [] with _ | ⟨d, ds⟩
      · simp
      · simp
    · rcases hq : s.getD j [] with _ | ⟨d, ds⟩
      · simp [free_slots, MAX_CAP]
      · simp [free_slots]
        ring
    · exact break_pure_eq (s.getD i [])

/-- C9 witness: the tuple equality evaluated at a concrete state and move. -/
theorem C9_priority_tuple_witness :
    ([["R", "G"], ["G"], []] : State).getD 0 [] ≠ [] ∧
    BT.priority_tuple [["R", "G"], ["G"], []] 0 1 =
      priority_tuple_spec [["R", "G"], ["G"], []] 0 1 :=
  ⟨by decide, C9_priority_tuple [["R", "G"], ["G"], []] 0 1 (by decide)⟩

/-! ## Engine soundness: returned solutions replay to a goal (C1) -/

theorem replay_snoc (start : State) (p : List Move) (mv : Move) (t u : State)
    (h1 : replay start p = .ok t)
    (h2 : aplicar_movimiento t (mv.1 : Int) (mv.2 : Int) = .ok u) :
    replay start (p ++ [mv]) = .ok u := by
  induction p generalizing start with
  | nil =>
    have hts : (Except.ok start : Except PyErr State) = .ok t := h1
    injection hts with hts'
    subst hts'
    simp only [List.nil_append]
    unfold replay
    rw [h2]
    rfl
  | cons mv' rest ih =>
    simp only [List.cons_append]
    unfold replay at h1 ⊢
    rcases hap : aplicar_movimiento start (mv'.1 : Int) (mv'.2 : Int) with e | v
    · rw [hap] at h1
      exact absurd h1 (by simp)
    · rw [hap] at h1
      exact ih v h1

/-- Soundness of the move loop, parametric in the recursive call. -/
theorem tryMoves_sound (start : State)
    (next : State → List Move → Option Move → List State → BT.SearchStats →
      Option BT.DfsRes)
    (hnext : ∀ s p l v st sol v2 st2, replay start p = .ok s →
      next s p l v st = some (some sol, v2, st2) →
      ∃ t, replay start sol = .ok t ∧ is_goal t = true) :
    ∀ (moves : List Move) (s : State) (path : List Move) (last : Option Move)
      (v : List State) (st : BT.SearchStats) (sol : List Move)
      (v2 : List State) (st2 : BT.SearchStats),
      replay start path = .ok s →
      BT.tryMoves next s path last moves v st = some (some sol, v2, st2) →
      ∃ t, replay start sol = .ok t ∧ is_goal t = true := by
  intro moves
  induction moves with
  | nil =>
    intro s path last v st sol v2 st2 hrep h
    unfold BT.tryMoves at h
    simp at h
  | cons mv rest ih =>
    intro s path last v st sol v2 st2 hrep h
    obtain ⟨i, j⟩ := mv
    unfold BT.tryMoves at h
    split at h
    · exact ih _ _ _ _ _ _ _ _ hrep h
    split at h
    · exact ih _ _ _ _ _ _ _ _ hrep h
    split at h
    · exact ih _ _ _ _ _ _ _ _ hrep h
    split at h
    · exact ih _ _ _ _ _ _ _ _ hrep h
    rename_i nuevo hap hvis
    split at h
    · exact absurd h (by simp)
    · rename_i res v3 st3 hnext_eq
      injection h with h'
      cases h'
      have hap' : aplicar_movimiento s (i : Int) (j : Int) = .ok nuevo := by
        rw [← aplicar_movimiento_bt_eq]; exact hap
      exact hnext _ _ _ _ _ _ _ _ (replay_snoc start path (i, j) s nuevo hrep hap') hnext_eq
    · exact ih _ _ _ _ _ _ _ _ hrep h

/-- Soundness of `dfs`: a returned solution extends the current path by
legal moves and its replay from `start` ends at a goal state. -/
theorem dfs_sound (start : State) (me : Option Nat) :
    ∀ (fuel : Nat) (s : State) (path : List Move) (last : Option Move)
      (v : List State) (st : BT.SearchStats) (sol : List Move)
      (v2 : List State) (st2 : BT.SearchStats),
      replay start path = .ok s →
      BT.dfs me fuel s path last v st = some (some sol, v2, st2) →
      ∃ t, replay start sol = .ok t ∧ is_goal t = true := by
  intro fuel
  induction fuel with
  | zero =>
    intro s path last v st sol v2 st2 hrep h
    unfold BT.dfs at h
    simp at h
  | succ fuel ih =>
    intro s path last v st sol v2 st2 hrep h
    unfold BT.dfs at h
    dsimp only at h
    split at h
    · exact absurd h (by simp)
    · split at h
      · rename_i hgoal
        injection h with h'
        have hsol : some path = some sol := congrArg Prod.fst h'
        injection hsol with hsol'
        subst hsol'
        exact ⟨s, hrep, hgoal⟩
      · exact tryMoves_sound start _ (fun s' p' l' v' st' sol' v2' st2' hr hh =>
          ih s' p' l' v' st' sol' v2' st2' hr hh) _ _ _ _ _ _ _ _ _ hrep h

theorem popMin_mem :
    ∀ {heap : List BB.Node} {n : BB.Node} {rest : List BB.Node},
      BB.popMin heap = some (n, rest) → n ∈ heap ∧ ∀ x ∈ rest, x ∈ heap := by
  intro heap
  induction heap with
  | nil =>
    intro n rest h
    simp [BB.popMin] at h
  | cons a l ih =>
    intro n rest h
    unfold BB.popMin at h
    rcases hp : BB.popMin l with _ | ⟨m, rest2⟩
    · rw [hp] at h
      dsimp only at h
      injection h with h'
      have h1 : a = n := congrArg Prod.fst h'
      have h2 : ([] : List BB.Node) = rest := congrArg Prod.snd h'
      subst h1
      rw [← h2]
      exact ⟨List.mem_cons_self _ _, by simp⟩
    · rw [hp] at h
      dsimp only at h
      obtain ⟨hm, hrest2⟩ := ih hp
      split at h
      · injection h with h'
        have h1 : m = n := congrArg Prod.fst h'
        have h2 : a :: rest2 = rest := congrArg Prod.snd h'
        subst h1
        rw [← h2]
        refine ⟨List.mem_cons_of_mem _ hm, ?_⟩
        intro x hx
        rcases List.mem_cons.mp hx with hx1 | hx1
        · subst hx1; exact List.mem_cons_self _ _
        · exact List.mem_cons_of_mem _ (hrest2 x hx1)
      · injection h with h'
        have h1 : a = n := congrArg Prod.fst h'
        have h2 : l = rest := congrArg Prod.snd h'
        subst h1
        rw [← h2]
        exact ⟨List.mem_cons_self _ _, fun x hx => List.mem_cons_of_mem _ hx⟩

/-- Every node pushed by the expansion loop replays from `start` to its
state, provided the expanded node and the accumulator already do. -/
theorem expandChildren_inv (start : State) (asig : List (Nat × Color)) (nodo : BB.Node)
    (costo : Option Int) (hnodo : replay start nodo.path = .ok nodo.estado) :
    ∀ (moves : List Move) (acc : List BB.Node × List (State × Int) × Nat),
      (∀ n ∈ acc.1, replay start n.path = .ok n.estado) →
      ∀ n ∈ (BB.expandChildren asig nodo costo moves acc).1,
        replay start n.path = .ok n.estado := by
  intro moves
  induction moves with
  | nil => intro acc hacc; exact hacc
  | cons mv rest ih =>
    intro acc hacc
    obtain ⟨i, j⟩ := mv
    unfold BB.expandChildren
    rcases hap : aplicar_movimiento nodo.estado (i : Int) (j : Int) with e | nuevo
    · exact ih acc hacc
    · dsimp only
      have hpush : ∀ n ∈ acc.1 ++
          [BB.mkNode nuevo (nodo.g + 1) (BB.calcular_lower_bound nuevo asig)
            (nodo.path ++ [(i, j)])], replay start n.path = .ok n.estado := by
        intro n hn
        rcases List.mem_append.mp hn with hn1 | hn1
        · exact hacc n hn1
        · simp only [List.mem_singleton] at hn1
          subst hn1
          exact replay_snoc start nodo.path (i, j) nodo.estado nuevo hnodo hap
      split
      · exact ih _ (by exact hacc)
      · split
        · exact ih _ (by exact hacc)
        · split
          · split
            · exact ih _ (by exact hacc)
            · exact ih _ hpush
          · exact ih _ hpush

/-- Soundness of the best-first loop: whatever solution it returns replays
from `start` to a goal state, given that every queued node and any current
best solution do. -/
theorem bnbLoop_sound (start : State) (asig : List (Nat × Color)) (me : Option Nat) :
    ∀ (fuel : Nat) (heap : List BB.Node) (best : Option (List Move))
      (costo : Option Int) (g : List (State × Int)) (stats : BB.SearchStats)
      (sol : List Move) (stats2 : BB.SearchStats),
      (∀ n ∈ heap, replay start n.path = .ok n.estado) →
      (∀ p, best = some p → ∃ t, replay start p = .ok t ∧ is_goal t = true) →
      BB.bnbLoop asig me fuel heap best costo g stats = some (some sol, stats2) →
      ∃ t, replay start sol = .ok t ∧ is_goal t = true := by
  intro fuel
  induction fuel with
  | zero =>
    intro heap best costo g stats sol stats2 hheap hbest h
    unfold BB.bnbLoop at h
    rcases heap with _ | ⟨n, l⟩
    · injection h with h'
      exact hbest sol (congrArg Prod.fst h')
    · exact absurd h (by simp)
  | succ fuel ih =>
    intro heap best costo g stats sol stats2 hheap hbest h
    unfold BB.bnbLoop at h
    rcases hpop : BB.popMin heap with _ | ⟨nodo, heap2⟩
    · rw [hpop] at h
      injection h with h'
      exact hbest sol (congrArg Prod.fst h')
    · rw [hpop] at h
      dsimp only at h
      obtain ⟨hnodo_mem, hheap2⟩ := popMin_mem hpop
      have hheap2' : ∀ n ∈ heap2, replay start n.path = .ok n.estado :=
        fun n hn => hheap n (hheap2 n hn)
      have hnodo : replay start nodo.path = .ok nodo.estado := hheap nodo hnodo_mem
      split at h
      · injection h with h'
        exact hbest sol (congrArg Prod.fst h')
      · split at h
        · rename_i hgoal
          split at h
          · exact ih heap2 _ _ g _ sol stats2 hheap2'
              (fun p hp => by
                injection hp with hp'
                subst hp'
                exact ⟨nodo.estado, hnodo, hgoal⟩) h
          · exact ih heap2 best costo g _ sol stats2 hheap2' hbest h
        · split at h
          · exact ih heap2 best costo g _ sol stats2 hheap2' hbest h
          · split at h
            · exact ih heap2 best costo g _ sol stats2 hheap2' hbest h
            · exact ih _ best costo _ _ sol stats2
                (expandChildren_inv start asig nodo costo hnodo
                  (BB.generar_movimientos_validos nodo.estado) (heap2, g, 0) hheap2')
                hbest h

/-- C1: for every start state, any budget and any returned solution, both
engines' solutions replay without error from the start state via
`aplicar_movimiento` to a state satisfying `is_goal`. -/
theorem C1_solutions_reach_goal :
    (∀ (start : State) (me : Option Nat) (fuel : Nat) (sol : List Move)
        (stats : BT.SearchStats),
        BT.solve_backtracking start me fuel = some (some sol, stats) →
        ∃ t, replay start sol = .ok t ∧ is_goal t = true) ∧
    (∀ (start : State) (me : Option Nat) (fuel : Nat) (sol : List Move)
        (stats : BB.SearchStats),
        BB.solve_branch_and_bound start me fuel = some (some sol, stats) →
        ∃ t, replay start sol = .ok t ∧ is_goal t = true) := by
  constructor
  · intro start me fuel sol stats h
    unfold BT.solve_backtracking at h
    rcases hd : (BT.dfs me fuel start [] none [start] { expanded := 0, max_depth := 0 } :
        Option BT.DfsRes) with _ | res
    · rw [hd] at h; exact absurd h (by simp)
    · rw [hd] at h
      obtain ⟨rsol, rv, rst⟩ := res
      have h' : (some (rsol, rst) : Option (Option (List Move) × BT.SearchStats)) =
          some (some sol, stats) := h
      injection h' with h''
      have hsol : rsol = some sol := congrArg Prod.fst h''
      subst hsol
      exact dfs_sound start me fuel start [] none [start] { expanded := 0, max_depth := 0 }
        sol rv rst rfl hd
  · intro start me fuel sol stats h
    unfold BB.solve_branch_and_bound at h
    dsimp only at h
    split at h
    · exact absurd h (by simp)
    · exact bnbLoop_sound start (BB.asignar_colores_destino start) me fuel
        [BB.mkNode start 0 (BB.calcular_lower_bound start (BB.asignar_colores_destino start)) []]
        none none [(start, 0)]
        { expanded := 0, max_depth := 0, pruned := 0, mejor_cota_encontrada := none }
        sol stats
        (by
          intro n hn
          simp only [List.mem_singleton] at hn
          subst hn
          rfl)
        (by intro p hp; exact absurd hp (by simp)) h

/-- C1 witness: a concrete solvable instance on which both engines return a
solution; the theorem yields goal-reaching replays for both. -/
theorem C1_solutions_reach_goal_witness :
    (∃ t, replay [["R", "R", "R", "R"], ["R"], []] [(1, 0)] = .ok t ∧ is_goal t = true) ∧
    (∃ t, replay [["R", "R", "R", "R"], ["R"], []] [(1, 0)] = .ok t ∧ is_goal t = true) :=
  ⟨C1_solutions_reach_goal.1 [["R", "R", "R", "R"], ["R"], []] none 100 [(1, 0)]
      { expanded := 2, max_depth := 1 } rfl,
    C1_solutions_reach_goal.2 [["R", "R", "R", "R"], ["R"], []] none 100 [(1, 0)]
      { expanded := 5, max_depth := 1, pruned := 3, mejor_cota_encontrada := some 1 } rfl⟩

/-! ## True minimal solution length and the BnB optimality claim (C2) -/

theorem aplicar_len {s t : State} {i j : Int}
    (h : aplicar_movimiento s i j = .ok t) : t.length = s.length := by
  obtain ⟨i', j', c, _, _, _, _, _, _, ht⟩ := aplicar_ok_inv h
  subst ht
  simp

/-- A successful replay over distinct in-range moves is a legal reaching
sequence in the spec's sense. -/
theorem reachesIn_of_replay :
    ∀ (ms : List Move) (s t : State),
      (∀ mv ∈ ms, mv.1 ≠ mv.2 ∧ mv.1 < s.length ∧ mv.2 < s.length) →
      replay s ms = .ok t → ReachesIn s ms t := by
  intro ms
  induction ms with
  | nil =>
    intro s t _ h
    have h' : (Except.ok s : Except PyErr State) = .ok t := h
    injection h' with h''
    exact h''.symm
  | cons mv rest ih =>
    intro s t hb h
    unfold replay at h
    rcases hap : aplicar_movimiento s (mv.1 : Int) (mv.2 : Int) with e | u
    · rw [hap] at h; exact absurd h (by simp)
    · rw [hap] at h
      obtain ⟨hne, h1, h2⟩ := hb mv (List.mem_cons_self _ _)
      refine ⟨u, hne, h1, h2, hap, ih u t ?_ h⟩
      intro mv' hmv'
      have hbounds := hb mv' (List.mem_cons_of_mem _ hmv')
      rw [← aplicar_len hap] at hbounds
      exact hbounds

theorem alcanzables_mono_succ {s : State} {n : Nat} {x : State}
    (h : x ∈ alcanzables s n) : x ∈ alcanzables s (n + 1) := by
  unfold alcanzables
  exact List.mem_append_left _ h

theorem alcanzables_mono {s : State} : ∀ {m n : Nat}, m ≤ n →
    ∀ {x : State}, x ∈ alcanzables s m → x ∈ alcanzables s n := by
  intro m n
  induction n with
  | zero =>
    intro h x hx
    have hm : m = 0 := by omega
    subst hm
    exact hx
  | succ n ih =>
    intro h x hx
    by_cases hm : m = n + 1
    · subst hm; exact hx
    · exact alcanzables_mono_succ (ih (by omega) hx)

theorem alcanzables_closed {s : State} {n : Nat} {x y : State}
    (hx : x ∈ alcanzables s n) (hy : y ∈ sucesores x) : y ∈ alcanzables s (n + 1) := by
  by_cases hmem : (alcanzables s n).contains y = true
  · have hmem' : y ∈ alcanzables s n := by
      exact List.elem_iff.mp hmem
    exact alcanzables_mono_succ hmem'
  · show y ∈ alcanzables s n ++
      ((alcanzables s n).flatMap sucesores).filter (fun t => !(alcanzables s n).contains t)
    refine List.mem_append_right _ ?_
    rw [List.mem_filter]
    refine ⟨List.mem_flatMap.mpr ⟨x, hx, hy⟩, ?_⟩
    have : (alcanzables s n).contains y = false := by
      rcases hcb : (alcanzables s n).contains y with _ | _
      · rfl
      · exact absurd hcb hmem
    rw [this]
    rfl

theorem alcanzables_sub {s u : State} (hu : u ∈ sucesores s) :
    ∀ (n : Nat) {x : State}, x ∈ alcanzables u n → x ∈ alcanzables s (n + 1) := by
  intro n
  induction n with
  | zero =>
    intro x hx
    have hx' : x = u := by simpa [alcanzables] using hx
    subst hx'
    exact alcanzables_closed (show s ∈ alcanzables s 0 by simp [alcanzables]) hu
  | succ n ih =>
    intro x hx
    unfold alcanzables at hx
    rcases List.mem_append.mp hx with hx1 | hx1
    · exact alcanzables_mono_succ (ih hx1)
    · obtain ⟨hx2, _⟩ := List.mem_filter.mp hx1
      obtain ⟨y, hy1, hy2⟩ := List.mem_flatMap.mp hx2
      exact alcanzables_closed (ih hy1) hy2

theorem sucesores_mem {s u : State} {mv : Move} (hne : mv.1 ≠ mv.2)
    (h1 : mv.1 < s.length) (h2 : mv.2 < s.length)
    (hap : aplicar_movimiento s (mv.1 : Int) (mv.2 : Int) = .ok u) :
    u ∈ sucesores s := by
  unfold sucesores
  rw [List.mem_filterMap]
  refine ⟨mv, ?_, by rw [hap]⟩
  unfold movimientos_legales
  rw [List.mem_flatMap]
  refine ⟨mv.1, List.mem_range.mpr h1, ?_⟩
  rw [List.mem_filterMap]
  refine ⟨mv.2, List.mem_range.mpr h2, ?_⟩
  have hbeq : (mv.1 == mv.2) = false := by
    simp only [beq_eq_false_iff_ne, ne_eq]
    exact hne
  rw [hbeq]
  obtain ⟨i', j', c, hi, hj, _, _, hm, _, _⟩ := aplicar_ok_inv hap
  have hi' : i' = mv.1 := by omega
  have hj' : j' = mv.2 := by omega
  subst hi'
  subst hj'
  rw [hm]
  simp

/-- BFS soundness: a legal reaching sequence of length `n` lands inside the
computed reachability list of depth `n`. -/
theorem reaches_mem : ∀ (ms : List Move) (s t : State),
    ReachesIn s ms t → t ∈ alcanzables s ms.length := by
  intro ms
  induction ms with
  | nil =>
    intro s t h
    have ht : t = s := h
    subst ht
    simp [alcanzables]
  | cons mv rest ih =>
    intro s t h
    obtain ⟨u, hne, h1, h2, hap, hrest⟩ := h
    exact alcanzables_sub (sucesores_mem hne h1 h2 hap) rest.length (ih u t hrest)

/-- If no state reachable within `k` moves is a goal, every solving
sequence is longer than `k`. -/
theorem min_sol_ge {s : State} {k : Nat}
    (hng : (alcanzables s k).all (fun t => !is_goal t) = true) :
    ∀ ms, SolvesIn s ms → k < ms.length := by
  intro ms hms
  obtain ⟨t, hreach, hgoal⟩ := hms
  by_contra hle
  rw [not_lt] at hle
  have hmem := alcanzables_mono hle (reaches_mem ms s t hreach)
  have hall := List.all_eq_true.mp hng t hmem
  rw [hgoal] at hall
  exact absurd hall (by simp)

/-- C2: the branch-and-bound engine is not optimal even on a 2-color
solvable instance.  On `[("R","R","G","G","R"), ("G","G","R","R","G"), ()]`
with no budget the priority queue empties and the engine returns a 10-move
solution, but the true minimum over all legal move sequences is 9: the
"lower bound" heuristic overestimates (spec section 9 flags the
double-counting), so after the first solution is found the f-based pruning
discards the cheaper route. -/
theorem C2_suboptimal :
    BB.solve_branch_and_bound [["R", "R", "G", "G", "R"], ["G", "G", "R", "R", "G"], []]
        none 100 =
      some (some [(0, 2), (1, 0), (1, 2), (1, 2), (0, 1), (0, 1), (0, 1),
                  (2, 0), (2, 0), (2, 0)],
        { expanded := 17, max_depth := 10, pruned := 3, mejor_cota_encontrada := some 10 }) ∧
    IsMinSolLen [["R", "R", "G", "G", "R"], ["G", "G", "R", "R", "G"], []] 9 ∧
    ([(0, 2), (1, 0), (1, 2), (1, 2), (0, 1), (0, 1), (0, 1),
      (2, 0), (2, 0), (2, 0)] : List Move).length ≠ 9 := by
  refine ⟨rfl, ⟨⟨[(0, 2), (1, 0), (1, 2), (1, 2), (0, 1), (0, 1), (0, 1), (0, 2), (0, 2)],
    rfl, ?_⟩, ?_⟩, by decide⟩
  · refine ⟨[[], ["G", "G", "G", "G", "G"], ["R", "R", "R", "R", "R"]], ?_, by decide⟩
    exact reachesIn_of_replay _ _ _ (by decide) (by rfl)
  · intro ms hms
    have h8 : ∀ ms, SolvesIn [["R", "R", "G", "G", "R"], ["G", "G", "R", "R", "G"], []] ms →
        8 < ms.length := min_sol_ge (by decide)
    have := h8 ms hms
    omega

/-! ## H1 focus color (C10): association-list and order facts -/

theorem pairLt_iff (a b : Nat × Nat) :
    BT.pairLt a b = true ↔ (a.1 < b.1 ∨ (a.1 = b.1 ∧ a.2 < b.2)) := by
  unfold BT.pairLt
  by_cases h : a.1 = b.1 <;> simp [h]

theorem bump_lookup_self (l : List (Color × Nat)) (c : Color) :
    BT.lookupD (BT.bump l c) c 0 = BT.lookupD l c 0 + 1 := by
  induction l with
  | nil => simp [BT.bump, BT.lookupD]
  | cons q rest ih =>
    obtain ⟨c', n⟩ := q
    unfold BT.bump
    by_cases h : (c' == c) = true
    · rw [if_pos h]
      unfold BT.lookupD
      rw [if_pos h, if_pos h]
    · rw [if_neg h]
      unfold BT.lookupD
      rw [if_neg h, if_neg h]
      exact ih

theorem bump_lookup_ne (l : List (Color × Nat)) (c c' : Color) (hne : c ≠ c') :
    BT.lookupD (BT.bump l c) c' 0 = BT.lookupD l c' 0 := by
  induction l with
  | nil =>
    simp only [BT.bump, BT.lookupD]
    rw [if_neg (by simpa using hne)]
  | cons q rest ih =>
    obtain ⟨c0, n⟩ := q
    unfold BT.bump
    by_cases h : (c0 == c) = true
    · rw [if_pos h]
      unfold BT.lookupD
      by_cases h' : (c0 == c') = true
      · exact absurd (eq_of_beq h ▸ eq_of_beq h') hne
      · rw [if_neg h', if_neg h']
    · rw [if_neg h]
      unfold BT.lookupD
      by_cases h' : (c0 == c') = true
      · rw [if_pos h', if_pos h']
      · rw [if_neg h', if_neg h']
        exact ih

theorem bump_keys (l : List (Color × Nat)) (c : Color) :
    (BT.bump l c).map Prod.fst =
      if (l.map Prod.fst).contains c then l.map Prod.fst
      else l.map Prod.fst ++ [c] := by
  induction l with
  | nil => simp [BT.bump]
  | cons q rest ih =>
    obtain ⟨c0, n⟩ := q
    unfold BT.bump
    by_cases h : (c0 == c) = true
    · rw [if_pos h]
      have : ((c0 :: rest.map Prod.fst).contains c) = true := by
        simp only [List.contains_cons]
        rw [show (c == c0) = true from by rw [eq_of_beq h]; exact beq_self_eq_true c]
        simp
      simp only [List.map_cons]
      rw [this]
      simp
    · rw [if_neg h]
      simp only [List.map_cons, List.contains_cons]
      have hcc0 : (c == c0) = false := by
        rw [beq_eq_false_iff_ne]
        intro he
        exact h (beq_of_eq he.symm)
      rw [hcc0]
      simp only [Bool.false_or]
      by_cases hc : (rest.map Prod.fst).contains c = true
      · rw [hc] at ih ⊢
        simp only [if_true] at ih ⊢
        simp [ih]
      · rw [Bool.not_eq_true] at hc
        rw [hc] at ih ⊢
        simp only [Bool.false_eq_true, if_false] at ih ⊢
        simp [ih]

theorem insMax_lookup_self (l : List (Color × Nat)) (c : Color) (r : Nat) :
    BT.lookupD (BT.insMax l c r) c 0 = max (BT.lookupD l c 0) r := by
  induction l with
  | nil => simp [BT.insMax, BT.lookupD]
  | cons q rest ih =>
    obtain ⟨c', n⟩ := q
    unfold BT.insMax
    by_cases h : (c' == c) = true
    · rw [if_pos h]
      unfold BT.lookupD
      rw [if_pos h, if_pos h]
    · rw [if_neg h]
      unfold BT.lookupD
      rw [if_neg h, if_neg h]
      exact ih

theorem insMax_lookup_ne (l : List (Color × Nat)) (c c' : Color) (r : Nat) (hne : c ≠ c') :
    BT.lookupD (BT.insMax l c r) c' 0 = BT.lookupD l c' 0 := by
  induction l with
  | nil =>
    simp only [BT.insMax, BT.lookupD]
    rw [if_neg (by simpa using hne)]
  | cons q rest ih =>
    obtain ⟨c0, n⟩ := q
    unfold BT.insMax
    by_cases h : (c0 == c) = true
    · rw [if_pos h]
      unfold BT.lookupD
      by_cases h' : (c0 == c') = true
      · exact absurd (eq_of_beq h ▸ eq_of_beq h') hne
      · rw [if_neg h', if_neg h']
    · rw [if_neg h]
      unfold BT.lookupD
      by_cases h' : (c0 == c') = true
      · rw [if_pos h', if_pos h']
      · rw [if_neg h', if_neg h']
        exact ih

theorem freq_topes_append (s : State) (p : Pile) :
    BT.freq_topes (s ++ [p]) =
      match top p with
      | some c => BT.bump (BT.freq_topes s) c
      | none => BT.freq_topes s := by
  unfold BT.freq_topes
  rw [List.foldl_append]
  rfl

theorem max_run_append (s : State) (p : Pile) :
    BT.max_run_por_color (s ++ [p]) =
      match top p with
      | none => BT.max_run_por_color s
      | some c => BT.insMax (BT.max_run_por_color s) c (run_len_superior p) := by
  unfold BT.max_run_por_color
  rw [List.foldl_append]
  rfl

theorem topFreq_append (s : State) (p : Pile) (c : Color) :
    topFreq (s ++ [p]) c =
      topFreq s c + (if (top p == some c) = true then 1 else 0) := by
  unfold topFreq
  rw [List.filter_append]
  rw [List.length_append]
  congr 1
  by_cases h : (top p == some c) = true
  · simp [h]
  · simp [h]

theorem foldr_max_init (l : List Nat) (b : Nat) :
    l.foldr max b = max (l.foldr max 0) b := by
  induction l with
  | nil => simp
  | cons x xs ih =>
    simp only [List.foldr_cons, ih]
    omega

theorem bestTopRun_append (s : State) (p : Pile) (c : Color) :
    bestTopRun (s ++ [p]) c =
      if (top p == some c) = true then max (bestTopRun s c) (run_len_superior p)
      else bestTopRun s c := by
  unfold bestTopRun
  rw [List.filter_append]
  by_cases h : (top p == some c) = true
  · rw [if_pos h]
    have : List.filter (fun q => top q == some c) [p] = [p] := by simp [h]
    rw [this, List.map_append, List.foldr_append]
    simp only [List.map_cons, List.map_nil, List.foldr_cons, List.foldr_nil]
    rw [foldr_max_init]
    omega
  · rw [if_neg h]
    have hfp : List.filter (fun q => top q == some c) [p] = [] := by
      have hx : (top p == some c) = false := by
        rcases hy : top p == some c with _ | _
        · rfl
        · exact absurd hy h
      simp [List.filter, hx]
    rw [hfp]
    simp

theorem IsTopColor_append (s : State) (p : Pile) (c : Color) :
    IsTopColor (s ++ [p]) c ↔ IsTopColor s c ∨ top p = some c := by
  unfold IsTopColor
  constructor
  · rintro ⟨q, hq, hqc⟩
    rcases List.mem_append.mp hq with hq1 | hq1
    · exact Or.inl ⟨q, hq1, hqc⟩
    · simp only [List.mem_singleton] at hq1
      subst hq1
      exact Or.inr hqc
  · rintro (⟨q, hq, hqc⟩ | hpc)
    · exact ⟨q, List.mem_append_left _ hq, hqc⟩
    · exact ⟨p, List.mem_append_right _ (List.mem_singleton.mpr rfl), hpc⟩

theorem topFreq_zero {s : State} {c : Color} (h : ¬ IsTopColor s c) : topFreq s c = 0 := by
  unfold topFreq
  rw [List.length_eq_zero]
  rw [List.filter_eq_nil_iff]
  intro q hq
  intro hbeq
  exact h ⟨q, hq, eq_of_beq hbeq⟩

theorem bestTopRun_zero {s : State} {c : Color} (h : ¬ IsTopColor s c) :
    bestTopRun s c = 0 := by
  unfold bestTopRun
  have : List.filter (fun q => top q == some c) s = [] := by
    rw [List.filter_eq_nil_iff]
    intro q hq hbeq
    exact h ⟨q, hq, eq_of_beq hbeq⟩
  rw [this]
  rfl

theorem ftop_lt_of_top {s : State} {c : Color} (h : IsTopColor s c) :
    firstTopIdx s c < s.length := by
  obtain ⟨q, hq, hqc⟩ := h
  exact List.findIdx_lt_length_of_exists ⟨q, hq, by rw [hqc]; exact beq_self_eq_true _⟩

theorem ftop_append_of_lt {s : State} {c : Color} (p : Pile)
    (h : firstTopIdx s c < s.length) :
    firstTopIdx (s ++ [p]) c = firstTopIdx s c := by
  unfold firstTopIdx at h ⊢
  induction s with
  | nil => simp at h
  | cons q rest ih =>
    rw [List.cons_append, List.findIdx_cons, List.findIdx_cons]
    rcases hx : (top q == some c) with _ | _
    · simp only [cond_false]
      rw [List.findIdx_cons, hx] at h
      simp only [cond_false, List.length_cons] at h
      rw [ih (by omega)]
    · simp

theorem ftop_append_new {s : State} {c : Color} {p : Pile}
    (h : ∀ q ∈ s, (top q == some c) = false) (hp : (top p == some c) = true) :
    firstTopIdx (s ++ [p]) c = s.length := by
  unfold firstTopIdx
  induction s with
  | nil =>
    simp only [List.nil_append, List.length_nil]
    rw [List.findIdx_cons, hp]
    rfl
  | cons q rest ih =>
    rw [List.cons_append, List.findIdx_cons, h q (List.mem_cons_self _ _)]
    simp only [cond_false, List.length_cons]
    rw [ih (fun r hr => h r (List.mem_cons_of_mem _ hr))]

/-- The central H1 bookkeeping facts: the `freq_topes` lookups are the
spec's `topFrequency`, the `max_run_por_color` lookups are the spec's
`bestRunByColor`, the keys are exactly the top colors, and the keys are
listed in strictly increasing order of first-top index. -/
theorem freq_invariants (s : State) :
    (∀ c, BT.lookupD (BT.freq_topes s) c 0 = topFreq s c) ∧
    (∀ c, BT.lookupD (BT.max_run_por_color s) c 0 = bestTopRun s c) ∧
    (∀ c, c ∈ (BT.freq_topes s).map Prod.fst ↔ IsTopColor s c) ∧
    ((BT.freq_topes s).map Prod.fst).Pairwise
      (fun a b => firstTopIdx s a < firstTopIdx s b) := by
  induction s using List.reverseRecOn with
  | nil =>
    refine ⟨?_, ?_, ?_, ?_⟩
    · intro c; simp [BT.freq_topes, BT.lookupD, topFreq]
    · intro c; simp [BT.max_run_por_color, BT.lookupD, bestTopRun]
    · intro c; simp [BT.freq_topes, IsTopColor]
    · simp [BT.freq_topes]
  | append_singleton s p ih =>
    obtain ⟨ihF, ihR, ihK, ihP⟩ := ih
    rcases htp : top p with _ | c0
    · have hf : BT.freq_topes (s ++ [p]) = BT.freq_topes s := by
        rw [freq_topes_append, htp]
      have hr : BT.max_run_por_color (s ++ [p]) = BT.max_run_por_color s := by
        rw [max_run_append, htp]
      refine ⟨?_, ?_, ?_, ?_⟩
      · intro c
        rw [hf, topFreq_append, htp, ihF c]
        simp
      · intro c
        rw [hr, bestTopRun_append, htp, ihR c]
        simp
      · intro c
        rw [hf, IsTopColor_append, ihK c, htp]
        simp
      · rw [hf]
        refine List.Pairwise.imp_of_mem ?_ ihP
        intro a b ha hb hab
        rw [ftop_append_of_lt p (ftop_lt_of_top ((ihK a).mp ha)),
          ftop_append_of_lt p (ftop_lt_of_top ((ihK b).mp hb))]
        exact hab
    · have hf : BT.freq_topes (s ++ [p]) = BT.bump (BT.freq_topes s) c0 := by
        rw [freq_topes_append, htp]
      have hr : BT.max_run_por_color (s ++ [p]) =
          BT.insMax (BT.max_run_por_color s) c0 (run_len_superior p) := by
        rw [max_run_append, htp]
      refine ⟨?_, ?_, ?_, ?_⟩
      · intro c
        rw [hf, topFreq_append, htp]
        by_cases hc : c = c0
        · subst hc
          rw [bump_lookup_self, ihF c]
          simp
        · rw [bump_lookup_ne _ _ _ (fun he => hc he.symm), ihF c]
          have hbe : (some c0 == some c) = false := by
            rw [beq_eq_false_iff_ne]
            intro he
            exact hc (Option.some.inj he).symm
          rw [hbe]
          simp
      · intro c
        rw [hr, bestTopRun_append, htp]
        by_cases hc : c = c0
        · subst hc
          rw [insMax_lookup_self, ihR c]
          simp
        · rw [insMax_lookup_ne _ _ _ _ (fun he => hc he.symm), ihR c]
          have hbe : (some c0 == some c) = false := by
            rw [beq_eq_false_iff_ne]
            intro he
            exact hc (Option.some.inj he).symm
          rw [hbe]
          simp
      · intro c
        rw [hf, bump_keys, IsTopColor_append, htp]
        by_cases hmem : ((BT.freq_topes s).map Prod.fst).contains c0 = true
        · rw [if_pos hmem]
          rw [ihK c]
          constructor
          · exact Or.inl
          · rintro (hin | heq)
            · exact hin
            · have : c = c0 := (Option.some.inj heq).symm
              subst this
              exact (ihK c).mp (List.elem_iff.mp hmem)
        · rw [if_neg hmem]
          rw [List.mem_append, ihK c]
          constructor
          · rintro (hin | hin)
            · exact Or.inl hin
            · simp only [List.mem_singleton] at hin
              subst hin
              exact Or.inr rfl
          · rintro (hin | heq)
            · exact Or.inl hin
            · have : c = c0 := (Option.some.inj heq).symm
              subst this
              exact Or.inr (List.mem_singleton.mpr rfl)
      · rw [hf, bump_keys]
        have hmap : ∀ a ∈ (BT.freq_topes s).map Prod.fst,
            firstTopIdx (s ++ [p]) a = firstTopIdx s a :=
          fun a ha => ftop_append_of_lt p (ftop_lt_of_top ((ihK a).mp ha))
        by_cases hmem : ((BT.freq_topes s).map Prod.fst).contains c0 = true
        · rw [if_pos hmem]
          refine List.Pairwise.imp_of_mem ?_ ihP
          intro a b ha hb hab
          rw [hmap a ha, hmap b hb]
          exact hab
        · rw [if_neg hmem]
          rw [List.pairwise_append]
          have hnotc0 : ¬ IsTopColor s c0 := by
            intro hcon
            exact hmem (List.elem_iff.mpr ((ihK c0).mpr hcon))
          have hc0new : firstTopIdx (s ++ [p]) c0 = s.length := by
            refine ftop_append_new ?_ (by rw [htp]; exact beq_self_eq_true _)
            intro q hq
            rcases hx : top q == some c0 with _ | _
            · rfl
            · exact absurd ⟨q, hq, eq_of_beq hx⟩ hnotc0
          refine ⟨?_, by simp, ?_⟩
          · refine List.Pairwise.imp_of_mem ?_ ihP
            intro a b ha hb hab
            rw [hmap a ha, hmap b hb]
            exact hab
          · intro a ha b hb
            simp only [List.mem_singleton] at hb
            subst hb
            rw [hmap a ha, hc0new]
            exact ftop_lt_of_top ((ihK a).mp ha)

theorem pickMax_unfold (key : Color → Nat × Nat) (c0 c : Color) (rest : List Color) :
    BT.pickMax key c0 (c :: rest) =
      if BT.pairLt (key c0) (key c) = true then BT.pickMax key c rest
      else BT.pickMax key c0 rest := by
  unfold BT.pickMax
  simp only [List.foldl_cons]
  by_cases h : BT.pairLt (key c0) (key c) = true <;> simp [h]

/-- The scan result is maximal: no scanned element has a strictly larger key. -/
theorem pickMax_not_lt (key : Color → Nat × Nat) :
    ∀ (rest : List Color) (c0 : Color), ∀ y ∈ c0 :: rest,
      BT.pairLt (key (BT.pickMax key c0 rest)) (key y) = false := by
  intro rest
  induction rest with
  | nil =>
    intro c0 y hy
    simp only [List.mem_singleton] at hy
    have hpm : BT.pickMax key c0 [] = c0 := rfl
    rw [hpm, hy]
    rcases hx : BT.pairLt (key c0) (key c0) with _ | _
    · rfl
    · rw [pairLt_iff] at hx
      omega
  | cons c rest ih =>
    intro c0 y hy
    rw [pickMax_unfold]
    by_cases h : BT.pairLt (key c0) (key c) = true
    · rw [if_pos h]
      rcases List.mem_cons.mp hy with hy1 | hy1
      · rw [hy1]
        rcases hx : BT.pairLt (key (BT.pickMax key c rest)) (key c0) with _ | _
        · rfl
        · exfalso
          have h1 := ih c c (List.mem_cons_self _ _)
          have h1' : ¬ BT.pairLt (key (BT.pickMax key c rest)) (key c) = true := by
            rw [h1]; simp
          rw [pairLt_iff] at hx h h1'
          omega
      · exact ih c y hy1
    · rw [if_neg h]
      rcases List.mem_cons.mp hy with hy1 | hy1
      · rw [hy1]
        exact ih c0 c0 (List.mem_cons_self _ _)
      · rcases List.mem_cons.mp hy1 with hy2 | hy2
        · rw [hy2]
          rcases hx : BT.pairLt (key (BT.pickMax key c0 rest)) (key c) with _ | _
          · rfl
          · exfalso
            have h1 := ih c0 c0 (List.mem_cons_self _ _)
            have h1' : ¬ BT.pairLt (key (BT.pickMax key c0 rest)) (key c0) = true := by
              rw [h1]; simp
            have h' : ¬ BT.pairLt (key c0) (key c) = true := h
            rw [pairLt_iff] at hx h1' h'
            omega
        · exact ih c0 y (List.mem_cons_of_mem _ hy2)

/-- The scan result is the first maximum: the scanned list splits around it
with all earlier elements strictly smaller. -/
theorem pickMax_first (key : Color → Nat × Nat) :
    ∀ (rest : List Color) (c0 : Color),
      ∃ l1 l2, c0 :: rest = l1 ++ BT.pickMax key c0 rest :: l2 ∧
        ∀ y ∈ l1, BT.pairLt (key y) (key (BT.pickMax key c0 rest)) = true := by
  intro rest
  induction rest with
  | nil =>
    intro c0
    exact ⟨[], [], rfl, by simp⟩
  | cons c rest ih =>
    intro c0
    rw [pickMax_unfold]
    by_cases h : BT.pairLt (key c0) (key c) = true
    · rw [if_pos h]
      obtain ⟨l1, l2, heq, hstrict⟩ := ih c
      refine ⟨c0 :: l1, l2, by rw [List.cons_append, ← heq], ?_⟩
      intro y hy
      rcases List.mem_cons.mp hy with hy1 | hy1
      · have hcr := pickMax_not_lt key rest c c (List.mem_cons_self _ _)
        have hcr' : ¬ BT.pairLt (key (BT.pickMax key c rest)) (key c) = true := by
          rw [hcr]; simp
        rw [hy1]
        rw [pairLt_iff] at h hcr' ⊢
        omega
      · exact hstrict y hy1
    · rw [if_neg h]
      obtain ⟨l1, l2, heq, hstrict⟩ := ih c0
      rcases l1 with _ | ⟨x, l1'⟩
      · simp only [List.nil_append] at heq
        injection heq with he1 he2
        refine ⟨[], c :: rest, ?_, by simp⟩
        rw [List.nil_append, ← he1]
      · rw [List.cons_append] at heq
        injection heq with he1 he2
        refine ⟨c0 :: c :: l1', l2, ?_, ?_⟩
        · rw [List.cons_append, List.cons_append, ← he2]
        · intro y hy
          rcases List.mem_cons.mp hy with hy1 | hy1
          · have h1 := hstrict x (List.mem_cons_self _ _)
            rw [← he1] at h1
            rw [hy1]
            exact h1
          · rcases List.mem_cons.mp hy1 with hy2 | hy2
            · have h1 := hstrict x (List.mem_cons_self _ _)
              rw [← he1] at h1
              have h' : ¬ BT.pairLt (key c0) (key c) = true := h
              rw [hy2]
              rw [pairLt_iff] at h1 h' ⊢
              omega
            · exact hstrict y (List.mem_cons_of_mem _ hy2)

/-- The scanned first maximum of the H1 key satisfies the spec's focus-color
characterization, given the bookkeeping facts about the key list. -/
theorem pickMax_foco (s : State) (key : Color → Nat × Nat) (c0 : Color) (ks : List Color)
    (hkey : ∀ x, key x = (topFreq s x, bestTopRun s x))
    (hmemK : ∀ x, x ∈ c0 :: ks ↔ IsTopColor s x)
    (hPk : (c0 :: ks).Pairwise (fun a b => firstTopIdx s a < firstTopIdx s b)) :
    IsFocoSpec s (BT.pickMax key c0 ks) := by
  obtain ⟨l1, l2, heq, hstrict⟩ := pickMax_first key ks c0
  have hmem : BT.pickMax key c0 ks ∈ c0 :: ks := by
    rw [heq]
    exact List.mem_append_right _ (List.mem_cons_self _ _)
  refine ⟨(hmemK _).mp hmem, ?_⟩
  intro c' htc'
  have hc'mem : c' ∈ c0 :: ks := (hmemK c').mpr htc'
  have hnl := pickMax_not_lt key ks c0 c' hc'mem
  constructor
  · have hnl' : ¬ BT.pairLt (key (BT.pickMax key c0 ks)) (key c') = true := by
      rw [hnl]; simp
    rw [pairLt_iff, hkey, hkey] at hnl'
    unfold pairLex
    dsimp only at hnl' ⊢
    omega
  · intro hties
    obtain ⟨ht1, ht2⟩ := hties
    rw [heq] at hPk
    have hc'mem2 : c' ∈ l1 ++ BT.pickMax key c0 ks :: l2 := heq ▸ hc'mem
    rcases List.mem_append.mp hc'mem2 with hin1 | hin2
    · exfalso
      have hstr := hstrict c' hin1
      rw [pairLt_iff, hkey, hkey] at hstr
      dsimp only at hstr
      omega
    · rcases List.mem_cons.mp hin2 with hin3 | hin3
      · rw [hin3]
      · rw [List.pairwise_append] at hPk
        have hlt := (List.pairwise_cons.mp hPk.2.1).1 c' hin3
        omega

/-- C10: `elegir_color_foco` returns `None` exactly when every pile is
empty; otherwise the returned color is a top color whose
`(topFrequency, bestRunByColor)` pair is lexicographically maximal among
all top colors, remaining ties resolved in favor of the color whose first
appearance as a pile top has the lowest pile index. -/
theorem C10_focus_color (s : State) :
    (BT.elegir_color_foco s = none ↔ ∀ p ∈ s, p = []) ∧
    (∀ c, BT.elegir_color_foco s = some c → IsFocoSpec s c) := by
  obtain ⟨hF, hR, hK, hP⟩ := freq_invariants s
  constructor
  · constructor
    · intro hnone p hp
      by_contra hpne
      obtain ⟨c, hc⟩ := Option.isSome_iff_exists.mp (List.getLast?_isSome.mpr hpne)
      have hmem := (hK c).mpr ⟨p, hp, hc⟩
      unfold BT.elegir_color_foco at hnone
      rcases hft : BT.freq_topes s with _ | ⟨⟨c0, n⟩, rest⟩
      · rw [hft] at hmem
        simp at hmem
      · rw [hft] at hnone
        exact absurd hnone (by simp)
    · intro hall
      unfold BT.elegir_color_foco
      rcases hft : BT.freq_topes s with _ | ⟨⟨c0, n⟩, rest⟩
      · rfl
      · exfalso
        have hc0 : c0 ∈ (BT.freq_topes s).map Prod.fst := by
          rw [hft]
          simp
        obtain ⟨p, hp, hpc⟩ := (hK c0).mp hc0
        rw [hall p hp] at hpc
        exact absurd hpc (by simp [top])
  · intro c helegir
    unfold BT.elegir_color_foco at helegir
    rcases hft : BT.freq_topes s with _ | ⟨⟨c0, n⟩, rest⟩
    · rw [hft] at helegir
      exact absurd helegir (by simp)
    · rw [hft] at helegir
      dsimp only at helegir
      injection helegir with hc
      subst hc
      rw [hft] at hF hK hP
      refine pickMax_foco s _ c0 (rest.map Prod.fst) ?_ ?_ ?_
      · intro x
        rw [hF x, hR x]
      · intro x
        have := hK x
        simpa using this
      · have := hP
        simpa using this

/-- C10 witness: on a concrete state the theorem yields the spec
characterization for the returned focus color. -/
theorem C10_focus_color_witness :
    IsFocoSpec [["R", "G"], ["R"], ["G"]] "G" :=
  (C10_focus_color [["R", "G"], ["R"], ["G"]]).2 "G" rfl

end NutSort